import Mathlib

set_option maxRecDepth 4000

/-!
Verification development for the tab-memory repository: a shallow embedding of
the event model, URL redaction, the local event store, the sync engine, the
ingestion endpoint, the auth middleware and the clustering configuration,
together with theorems settling the spec claims about them.

Strings from the JavaScript/TypeScript source are modelled as `String`
(equivalently their character lists `List Char`); JavaScript `Date` values and
timestamps are modelled as `Nat`; JavaScript numbers used as ids are modelled
as `Int`.  The nondeterministic fresh local-id generator
(`generateLocalId`, built from `Date.now` and `Math.random`) is modelled by an
explicit fresh-counter supply: the only property the source relies on is that
generated ids are fresh.  The `ApiClient` is modelled with its optional
`StorageManager` dependency present, the wiring the spec describes (with it
absent, `syncPendingEvents` degenerates to the queue-only special case of the
same algorithm).
-/

/-- Character lists, the representation of JavaScript strings used by the
character-level URL model. -/
abbrev Chars := List Char

/-! ## Character-level splitting, modelling WHATWG URL component separation

The function `redactSensitiveUrl` in `shared/src/utils/url.ts` uses the
platform `URL` and `URLSearchParams` classes.  We model the slice of their
behaviour the redaction logic observes: a URL string splits at the first `#`
into a pre-fragment part and a fragment, the pre-fragment part splits at the
first `?` into a base and a query string, and the query string splits at `&`
into pieces, each splitting at the first `=` into a name and a value.
Serialization joins the components back with the same separators. -/

/-- Split at the first occurrence of `c`: the part before it and, when `c`
occurs, the part after it. -/
def splitFirst (c : Char) : Chars → Chars × Option Chars
  | [] => ([], none)
  | x :: xs =>
    if x = c then ([], some xs)
    else (x :: (splitFirst c xs).1, (splitFirst c xs).2)

/-- Split at every occurrence of `c`; always returns at least one piece. -/
def splitAll (c : Char) : Chars → List Chars
  | [] => [[]]
  | x :: xs =>
    if x = c then [] :: splitAll c xs
    else
      match splitAll c xs with
      | [] => [[x]]
      | p :: ps => (x :: p) :: ps

/-- Join pieces with the separator `c` between consecutive pieces. -/
def joinAll (c : Char) : List Chars → Chars
  | [] => []
  | [a] => a
  | a :: b :: rest => a ++ c :: joinAll c (b :: rest)

/-! ## URL objects and query parameters

`UrlObj` models the state of a parsed `new URL(...)` at the granularity the
redaction logic observes: the part before the query (scheme, authority and
path, kept verbatim), the ordered name-value list of query parameters, and the
optional fragment.  `new URL` throws on strings without a valid scheme; this
is modelled by `parseUrl` returning `none`.  (Platform normalizations that
never affect redaction, such as percent-encoding and host case-folding, are
not modelled; components are kept verbatim.) -/

structure UrlObj where
  base : Chars
  params : List (Chars × Chars)
  frag : Option Chars
deriving DecidableEq

/-- Does the candidate base have the shape `scheme:...` with a nonempty
alphabetic scheme?  This models the success condition of `new URL`. -/
def validBase (b : Chars) : Bool :=
  match splitFirst ':' b with
  | (scheme, some _) => !scheme.isEmpty && scheme.all Char.isAlpha
  | (_, none) => false

/-- Parse one `name=value` piece of a query string; a piece without `=` is a
name with an empty value, as in `URLSearchParams`. -/
def parsePiece (piece : Chars) : Chars × Chars :=
  match splitFirst '=' piece with
  | (k, none) => (k, [])
  | (k, some v) => (k, v)

/-- Parse a query string into its ordered name-value list; empty pieces are
skipped, as in `URLSearchParams`. -/
def parseQuery (q : Chars) : List (Chars × Chars) :=
  ((splitAll '&' q).filter (fun p => !p.isEmpty)).map parsePiece

/-- Serialize one name-value pair as `name=value`. -/
def serializePair (kv : Chars × Chars) : Chars := kv.1 ++ '=' :: kv.2

/-- Serialize the parameter list, joining `name=value` pieces with `&`. -/
def serializeQuery (ps : List (Chars × Chars)) : Chars :=
  joinAll '&' (ps.map serializePair)

/-- Parse a URL string: split off the fragment at the first `#`, split off the
query at the first `?`, and require a valid scheme. -/
def parseUrl (s : Chars) : Option UrlObj :=
  match splitFirst '#' s with
  | (beforeFrag, fragPart) =>
    match splitFirst '?' beforeFrag with
    | (base, queryPart) =>
      if validBase base then
        some ⟨base, parseQuery (queryPart.getD []), fragPart⟩
      else none

/-- Serialize a URL object back to a string (`urlObj.toString()`): the base,
then `?query` when parameters are present, then `#fragment` when one is
recorded. -/
def serializeUrl (u : UrlObj) : Chars :=
  u.base
    ++ (match u.params with
        | [] => []
        | _ :: _ => '?' :: serializeQuery u.params)
    ++ (match u.frag with
        | none => []
        | some f => '#' :: f)

/-- Does the parameter list contain an entry with this name
(`searchParams.has`)? -/
def hasParam (p : Chars) : List (Chars × Chars) → Bool
  | [] => false
  | (k, _) :: rest => k = p || hasParam p rest

/-- Drop every entry with this name. -/
def removeParam (p : Chars) (l : List (Chars × Chars)) : List (Chars × Chars) :=
  l.filter (fun kv => kv.1 ≠ p)

/-- Set a parameter (`searchParams.set`): replace the value of the first entry
with this name and drop the other entries with it; append when absent. -/
def setParam (p v : Chars) : List (Chars × Chars) → List (Chars × Chars)
  | [] => [(p, v)]
  | (k, w) :: rest =>
    if k = p then (p, v) :: removeParam p rest
    else (k, w) :: setParam p v rest

/-! ## The redaction function (`redactSensitiveUrl` in `shared/src/utils/url.ts`) -/

/-- The fixed list of query parameter names the source redacts. -/
def sensitiveParams : List Chars :=
  (["token", "access_token", "auth_token", "api_key", "apikey",
    "key", "secret", "password", "pwd", "pass",
    "session", "sessionid", "session_id", "sid",
    "oauth", "oauth_token", "oauth_signature",
    "code", "auth_code", "authorization_code",
    "client_secret", "refresh_token",
    "jwt", "bearer"]).map String.data

/-- The replacement value written over sensitive parameters. -/
def redactedMarker : Chars := "[REDACTED]".data

/-- One iteration of the redaction loop: if the parameter is present, set it
to the redaction marker. -/
def redactStep (l : List (Chars × Chars)) (p : Chars) : List (Chars × Chars) :=
  if hasParam p l then setParam p redactedMarker l else l

/-- The body of the redaction loop over the fixed sensitive-parameter list. -/
def redactParams (l : List (Chars × Chars)) : List (Chars × Chars) :=
  sensitiveParams.foldl redactStep l

/-- Character-level redaction: parse, redact the query parameters, serialize;
return the input unchanged when parsing fails (the source's catch branch). -/
def redactChars (s : Chars) : Chars :=
  match parseUrl s with
  | none => s
  | some u => serializeUrl ⟨u.base, redactParams u.params, u.frag⟩

/-- The source function `redactSensitiveUrl`, at `String` level. -/
def redactSensitiveUrl (s : String) : String := ⟨redactChars s.data⟩

/-! ## Well-formedness of parsed components

Components produced by `parseUrl` never contain the separators that were
split on; this is what makes serialization invertible on parsed objects. -/

/-- A parameter name as produced by parsing: free of the separators. -/
def wfKey (k : Chars) : Prop := '=' ∉ k ∧ '&' ∉ k ∧ '#' ∉ k

instance (k : Chars) : Decidable (wfKey k) := by unfold wfKey; infer_instance

/-- A parameter value as produced by parsing: free of the separators that
delimit it (a value may contain `=` and `?`). -/
def wfVal (v : Chars) : Prop := '&' ∉ v ∧ '#' ∉ v

instance (v : Chars) : Decidable (wfVal v) := by unfold wfVal; infer_instance

/-- Every entry of the parameter list is well formed. -/
def wfParams (l : List (Chars × Chars)) : Prop := ∀ kv ∈ l, wfKey kv.1 ∧ wfVal kv.2

instance (l : List (Chars × Chars)) : Decidable (wfParams l) := by
  unfold wfParams; infer_instance

/-- A base as produced by parsing: a valid scheme and free of `?` and `#`. -/
def wfBase (b : Chars) : Prop := validBase b = true ∧ '?' ∉ b ∧ '#' ∉ b

instance (b : Chars) : Decidable (wfBase b) := by unfold wfBase; infer_instance

/-- A URL object as produced by parsing. -/
def wfUrl (u : UrlObj) : Prop := wfBase u.base ∧ wfParams u.params

instance (u : UrlObj) : Decidable (wfUrl u) := by unfold wfUrl; infer_instance

/-! ## Properties of the parameter operations and of the redaction loop -/

/-- Number of entries with the given name. -/
def countKey (p : Chars) (l : List (Chars × Chars)) : Nat :=
  l.countP (fun kv => decide (kv.1 = p))

/-- The state the redaction loop establishes for a parameter name: at most one
entry with the name, and every such entry already holds the marker. -/
def goodParam (p : Chars) (l : List (Chars × Chars)) : Prop :=
  countKey p l ≤ 1 ∧ ∀ w, (p, w) ∈ l → w = redactedMarker

/-! ## The event model and the local event store

These model `shared/types` (the `Event` record), `StorageManager` in
`extension/src/background/storage-manager.ts`, `ApiClient` in
`extension/src/background/api-client.ts` and `TabEventHandler` in
`extension/src/background/tab-event-handler.ts`.  JavaScript truthiness tests
on numbers and strings (`!tab.id`, `!event.url`, ...) are modelled as
comparisons with `0` and `""`. -/

/-- The event types of the source (`open` is a Lean keyword, hence the
escaped constructor name). -/
inductive EventType
  | «open»
  | update
  | activate
  | close
deriving DecidableEq

/-- One captured tab-activity fact, without the server-assigned `id` and
`user_id` fields (the client works with `Omit<Event, 'id' | 'user_id'>`). -/
structure Event where
  window_id : Int
  tab_id : Int
  type : EventType
  title : String
  url : String
  ts : Nat
deriving DecidableEq

/-- An event held by the client, tagged with its locally generated id. -/
structure StoredEvent where
  event : Event
  localId : Nat
deriving DecidableEq

/-- The `tabInfo` side-table entry: last known title, url and time of a tab. -/
structure TabInfo where
  title : String
  url : String
  lastSeen : Nat
deriving DecidableEq

/-- The persisted client blob held by `StorageManager` (its `events`,
`tabInfo` and `lastSync` fields; `config` and `authToken` are carried by the
client-world record below). -/
structure StorageState where
  events : List StoredEvent
  tabInfo : List (Int × TabInfo)
  lastSync : Option Nat
deriving DecidableEq

/-- The storage capacity bound `MAX_LOCAL_EVENTS` of the source. -/
def MAX_LOCAL_EVENTS : Nat := 1000

/-- The last `n` entries of a list (`Array.slice(-n)` in the source). -/
def takeLast (n : Nat) (l : List α) : List α := l.drop (l.length - n)

/-- Update or insert the side-table entry for a tab id
(`data.tabInfo[tabId] = info`). -/
def updateTabInfo (tabId : Int) (info : TabInfo) :
    List (Int × TabInfo) → List (Int × TabInfo)
  | [] => [(tabId, info)]
  | (k, v) :: rest =>
    if k = tabId then (tabId, info) :: rest
    else (k, v) :: updateTabInfo tabId info rest

/-- Look up the side-table entry for a tab id. -/
def lookupTabInfo (tabId : Int) : List (Int × TabInfo) → Option TabInfo
  | [] => none
  | (k, v) :: rest => if k = tabId then some v else lookupTabInfo tabId rest

/-- Remove the side-table entry for a tab id (`delete data.tabInfo[tabId]`). -/
def removeTabInfo (tabId : Int) (l : List (Int × TabInfo)) :
    List (Int × TabInfo) :=
  l.filter (fun kv => kv.1 ≠ tabId)

/-- The source `StorageManager.storeEvent`: append the event tagged with a
fresh local id, record the tab info when `tab_id`, `url` and `title` are all
truthy, and evict the oldest entries beyond `MAX_LOCAL_EVENTS`.  The fresh
local id is supplied by the caller (see the module comment). -/
def storeEvent (localId : Nat) (e : Event) (st : StorageState) : StorageState :=
  let events1 := st.events ++ [⟨e, localId⟩]
  let tabInfo1 :=
    if e.tab_id ≠ 0 ∧ e.url ≠ "" ∧ e.title ≠ "" then
      updateTabInfo e.tab_id ⟨e.title, e.url, e.ts⟩ st.tabInfo
    else st.tabInfo
  let events2 :=
    if events1.length > MAX_LOCAL_EVENTS then takeLast MAX_LOCAL_EVENTS events1
    else events1
  ⟨events2, tabInfo1, st.lastSync⟩

/-- The source `StorageManager.getPendingEvents`. -/
def getPendingEvents (st : StorageState) : List StoredEvent := st.events

/-- The source `StorageManager.markEventsSynced`: drop every event whose local
id is in the list and record the sync time (`new Date()`, supplied as `now`). -/
def markEventsSynced (now : Nat) (localIds : List Nat) (st : StorageState) :
    StorageState :=
  ⟨st.events.filter (fun ev => !localIds.contains ev.localId), st.tabInfo, some now⟩

/-- Append a sequence of events through `storeEvent`, drawing fresh local ids
from a counter. -/
def storeAll (startId : Nat) (es : List Event) (st : StorageState) : StorageState :=
  match es with
  | [] => st
  | e :: rest => storeAll (startId + 1) rest (storeEvent startId e st)

/-- Tag a sequence of events with consecutive local ids, the shape the
append fold produces. -/
def tagFrom (n : Nat) : List Event → List StoredEvent
  | [] => []
  | e :: rest => ⟨e, n⟩ :: tagFrom (n + 1) rest

/-! ## The sync engine (`ApiClient`) -/

/-- JavaScript falsiness of an optional string (`!x` is true for both a
missing and an empty string). -/
def jsFalsy : Option String → Bool
  | none => true
  | some s => s = ""

/-- Result of one `post('/events/batch', ...)` call, as the sync loop
observes it: a response with `success: true`, a response with
`success: false` (`handleResponse` turns HTTP error statuses and body parse
failures into this without throwing), or a thrown error (the fetch itself
rejected). -/
inductive PostResult
  | ok
  | errResp
  | exn
deriving DecidableEq

/-- The source batch size of `syncPendingEvents`. -/
def batchSize : Nat := 50

/-- The client world: the storage blob plus the `ApiClient` fields
(`eventQueue`, `authToken`, `syncInProgress`) and the fresh-id counter that
models `generateLocalId`. -/
structure ClientWorld where
  storage : StorageState
  eventQueue : List StoredEvent
  authToken : Option String
  syncInProgress : Bool
  nextId : Nat
deriving DecidableEq

/-- The batch loop of `syncPendingEvents` (`for i in 0..; slice(i, i+50)`):
`oracle n` is the outcome of the `n`-th network call of this cycle.  Returns
the local ids recorded as synced and the batches actually sent, in order.  On
`ok` the batch ids are recorded; on `errResp` they are not but the loop
continues; on `exn` the loop breaks.  The fuel argument is an upper bound on
the recursion depth; `syncPendingEvents` passes the list length, which
suffices because every round consumes at least one event. -/
def syncBatchLoop (oracle : Nat → PostResult) :
    Nat → List StoredEvent → Nat → List Nat × List (List StoredEvent)
  | 0, _, _ => ([], [])
  | _ + 1, [], _ => ([], [])
  | fuel + 1, e :: rest, i =>
    let batch := (e :: rest).take batchSize
    match oracle i with
    | .exn => ([], [batch])
    | .ok =>
      let r := syncBatchLoop oracle fuel ((e :: rest).drop batchSize) (i + 1)
      (batch.map (fun ev => ev.localId) ++ r.1, batch :: r.2)
    | .errResp =>
      let r := syncBatchLoop oracle fuel ((e :: rest).drop batchSize) (i + 1)
      (r.1, batch :: r.2)

/-- The source `ApiClient.syncPendingEvents`: return immediately when a sync
is in flight or no auth token is present; otherwise batch the stored plus
queued events, send them, mark the confirmed local ids as synced and drop
them from the in-memory queue.  Returns the new world and the batches sent
(the network calls made this cycle). -/
def syncPendingEvents (now : Nat) (oracle : Nat → PostResult) (w : ClientWorld) :
    ClientWorld × List (List StoredEvent) :=
  if w.syncInProgress ∨ jsFalsy w.authToken then (w, [])
  else
    let allEvents := w.storage.events ++ w.eventQueue
    if allEvents.isEmpty then (w, [])
    else
      let r := syncBatchLoop oracle allEvents.length allEvents 0
      let storage1 :=
        if r.1.isEmpty then w.storage else markEventsSynced now r.1 w.storage
      let queue1 := w.eventQueue.filter (fun ev => !r.1.contains ev.localId)
      ({ w with storage := storage1, eventQueue := queue1 }, r.2)

/-- The batch partition of a list (take/drop in steps of `batchSize`), the
shape of the slices the sync loop sends.  Defined with an explicit fuel bound
(the list length) so that it stays structurally recursive. -/
def chunksFuel {α : Type} : Nat → List α → List (List α)
  | 0, _ => []
  | _ + 1, [] => []
  | fuel + 1, x :: xs => ((x :: xs).take batchSize) :: chunksFuel fuel ((x :: xs).drop batchSize)

/-- The batch partition of a list into slices of `batchSize`. -/
def chunks50 {α : Type} (l : List α) : List (List α) := chunksFuel l.length l

/-- The sync loop expressed over the batch partition: the specification shape
used to characterize `syncBatchLoop`. -/
def loopSpec (oracle : Nat → PostResult) (i : Nat) :
    List (List StoredEvent) → List Nat × List (List StoredEvent)
  | [] => ([], [])
  | b :: bs =>
    match oracle i with
    | .exn => ([], [b])
    | .ok =>
      let r := loopSpec oracle (i + 1) bs
      (b.map (fun ev => ev.localId) ++ r.1, b :: r.2)
    | .errResp =>
      let r := loopSpec oracle (i + 1) bs
      (r.1, b :: r.2)

/-- The local ids of the batches whose calls succeeded, in order: the ids a
cycle acknowledges when it attempts exactly the given batches. -/
def ackedIds (oracle : Nat → PostResult) :
    List (List StoredEvent) → Nat → List Nat
  | [], _ => []
  | b :: bs, i =>
    (if oracle i = .ok then b.map (fun ev => ev.localId) else []) ++
      ackedIds oracle bs (i + 1)

/-- The source `ApiClient.queueEvent` (the push; the size-triggered
`syncPendingEvents` it fires asynchronously is modelled as a separate sync
step in a trace). -/
def queueEvent (ev : StoredEvent) (w : ClientWorld) : ClientWorld :=
  { w with eventQueue := w.eventQueue ++ [ev] }

/-! ## The tab event handler (`TabEventHandler`) -/

/-- The browser-side view of a tab, as passed to the handler callbacks. -/
structure RawTab where
  id : Int
  windowId : Int
  url : String
  title : String

/-- The ignore-list of internal browser schemes (`ignoredPrefixes` in the
source `shouldIgnoreUrl`). -/
def ignoredSchemes : List String :=
  ["chrome://", "chrome-extension://", "edge://", "about:",
   "moz-extension://", "safari-extension://", "data:", "javascript:"]

/-- JavaScript `String.startsWith`, character by character. -/
def startsWithChars : Chars → Chars → Bool
  | [], _ => true
  | _ :: _, [] => false
  | p :: ps, s :: ss => p = s && startsWithChars ps ss

/-- The source `shouldIgnoreUrl`. -/
def shouldIgnoreUrl (url : String) : Bool :=
  ignoredSchemes.any (fun p => startsWithChars p.data url.data)

/-- The source `TabEventHandler.handleTabEvent`: skip when a required tab
property is missing (falsy) or the url is ignored, otherwise build the event
(placeholder title, redacted url), store it, and queue a copy with a second
fresh local id for sync. -/
def handleTabEvent (tab : RawTab) (t : EventType) (now : Nat) (w : ClientWorld) :
    ClientWorld :=
  if tab.id = 0 ∨ tab.url = "" ∨ tab.windowId = 0 then w
  else if shouldIgnoreUrl tab.url then w
  else
    let e : Event :=
      { window_id := tab.windowId, tab_id := tab.id, type := t,
        title := if tab.title = "" then "Untitled" else tab.title,
        url := redactSensitiveUrl tab.url, ts := now }
    { w with
      storage := storeEvent w.nextId e w.storage,
      eventQueue := w.eventQueue ++ [⟨e, w.nextId + 1⟩],
      nextId := w.nextId + 2 }

/-- The source `TabEventHandler.handleTabClose`: always builds a close event,
recovering title and url from the `tabInfo` side table when available (with
falsy-default `'Closed Tab'` and `''`), stores it, removes the side-table
entry, and queues a copy for sync. -/
def handleTabClose (tabId windowId : Int) (now : Nat) (w : ClientWorld) :
    ClientWorld :=
  let info := lookupTabInfo tabId w.storage.tabInfo
  let e : Event :=
    { window_id := windowId, tab_id := tabId, type := .close,
      title := match info with
        | some i => if i.title = "" then "Closed Tab" else i.title
        | none => "Closed Tab",
      url := match info with
        | some i => i.url
        | none => "",
      ts := now }
  let st1 := storeEvent w.nextId e w.storage
  { w with
    storage := { st1 with tabInfo := removeTabInfo tabId st1.tabInfo },
    eventQueue := w.eventQueue ++ [⟨e, w.nextId + 1⟩],
    nextId := w.nextId + 2 }

/-- A raw browser tab activity: a tab callback with an event type, or a tab
removal.  For a removal the browser passes only the tab id and window id to
the handler; the `tab` field records the closing tab as the browser saw it
(its url is not available to the handler). -/
inductive RawActivity
  | tabEvent (tab : RawTab) (t : EventType)
  | tabClose (tab : RawTab) (windowId : Int)

/-- The url of the raw activity as the browser saw it. -/
def RawActivity.url : RawActivity → String
  | .tabEvent tab _ => tab.url
  | .tabClose tab _ => tab.url

/-- Dispatch of `setupListeners`: tab callbacks go to `handleTabEvent`, tab
removals to `handleTabClose` with only the tab id and window id. -/
def dispatchActivity (a : RawActivity) (now : Nat) (w : ClientWorld) : ClientWorld :=
  match a with
  | .tabEvent tab t => handleTabEvent tab t now w
  | .tabClose tab windowId => handleTabClose tab.id windowId now w

/-- One step of the client: a raw tab activity, a sync invocation (periodic,
manual, or the size-triggered one fired by `queueEvent`), or a change of the
stored credential (`authenticate` / `logout`). -/
inductive ClientStep
  | act (a : RawActivity) (now : Nat)
  | sync (now : Nat) (oracle : Nat → PostResult)
  | setToken (tok : Option String)

/-- Apply one step to the client world. -/
def applyStep (w : ClientWorld) : ClientStep → ClientWorld
  | .act a now => dispatchActivity a now w
  | .sync now oracle => (syncPendingEvents now oracle w).1
  | .setToken tok => { w with authToken := tok }

/-- Run a trace of steps from a world. -/
def runTrace (steps : List ClientStep) (w : ClientWorld) : ClientWorld :=
  steps.foldl applyStep w

/-- The initial client world: empty storage, empty queue, no credential. -/
def initWorld : ClientWorld := ⟨⟨[], [], none⟩, [], none, false, 0⟩

/-! ## The ingestion endpoint (`routes/events.ts` batch route)

The route validates the batch (Joi: 1 to 100 events), then inserts the events
one by one inside `db.transaction`.  The three reachable backends behave
differently and each is modelled separately:

* the mock database (used directly by `MockDatabase.transaction` and as the
  live fallback of `DatabaseConnection`): `insertEvent` is an infallible
  in-memory push for the route's Joi-validated seven-parameter calls, so the
  loop always appends the whole batch;
* `DatabaseConnection.transaction` (pg): the loop runs inside BEGIN / COMMIT,
  a mid-batch INSERT failure (possible against live PostgreSQL: connection
  loss, constraint violation — modelled by an oracle) triggers ROLLBACK,
  restoring the pg table, after which the outer catch re-runs the whole
  callback against the mock database and the route answers success;
* `SupabaseConnection.transaction`: the callback receives the raw
  `SupabaseClient`, which has no `query` method, so the first insert of the
  loop throws before any row is written and the route answers an error with
  the store untouched. -/

/-- A persisted row of the `events` table. -/
structure ServerEvent where
  user_id : String
  window_id : Int
  tab_id : Int
  type : EventType
  title : String
  url : String
  ts : Nat
deriving DecidableEq

/-- The row built from a submitted event. -/
def eventRow (userId : String) (e : Event) : ServerEvent :=
  ⟨userId, e.window_id, e.tab_id, e.type, e.title, e.url, e.ts⟩

/-- The response of the batch route: acceptance with `synced_count`, or an
error status. -/
inductive BatchResponse
  | accepted (synced_count : Nat)
  | rejected (status : Nat)
deriving DecidableEq

/-- The route's insert loop against the mock database: every
`MockDatabase.insertEvent` call succeeds (it throws only for fewer than six
parameters, and the route always passes seven Joi-validated parameters), so
the events are pushed one by one and the whole batch is appended. -/
def insertEventsMock (userId : String) : List Event → List ServerEvent → List ServerEvent
  | [], tbl => tbl
  | e :: rest, tbl => insertEventsMock userId rest (tbl ++ [eventRow userId e])

/-- The route's insert loop against live PostgreSQL inside BEGIN: each
INSERT may fail for external reasons (connection loss mid-batch, constraint
violation); `oracle i` is the outcome of the i-th INSERT.  On the first
failure the loop throws; the rows written so far are uncommitted. -/
def insertEventsPg (oracle : Nat → Bool) (userId : String) :
    List Event → Nat → List ServerEvent → Bool × List ServerEvent
  | [], _, tbl => (true, tbl)
  | e :: rest, i, tbl =>
    if oracle i then
      insertEventsPg oracle userId rest (i + 1) (tbl ++ [eventRow userId e])
    else (false, tbl)

/-- The batch route against the mock backend: after validation the loop
appends the whole batch and the route answers success. -/
def postBatchMock (userId : String) (events : List Event)
    (tbl : List ServerEvent) : BatchResponse × List ServerEvent :=
  if events.length < 1 ∨ events.length > 100 then (.rejected 400, tbl)
  else (.accepted events.length, insertEventsMock userId events tbl)

/-- The batch route against `SupabaseConnection.transaction`: the callback
receives the raw `SupabaseClient`, which has no `query` method, so the first
insert of the loop throws before touching the store; the route answers an
error and nothing is persisted. -/
def postBatchSupabase (userId : String) (events : List Event)
    (tbl : List ServerEvent) : BatchResponse × List ServerEvent :=
  if events.length < 1 ∨ events.length > 100 then (.rejected 400, tbl)
  else (.rejected 500, tbl)

/-- The two events stores `DatabaseConnection` can touch: the PostgreSQL
table and the in-memory mock table. -/
structure DbTables where
  pg : List ServerEvent
  mock : List ServerEvent
deriving DecidableEq

/-- The batch route against `DatabaseConnection.transaction` (connection.ts
lines 74 to 94): the loop runs inside BEGIN / COMMIT; when an INSERT fails
the transaction helper issues ROLLBACK — restoring the pg table — and
rethrows, and the outer catch re-runs the whole callback against the mock
database (whose inserts are infallible), so the route still answers
success. -/
def postBatchPgFallback (oracle : Nat → Bool) (userId : String)
    (events : List Event) (tbls : DbTables) : BatchResponse × DbTables :=
  if events.length < 1 ∨ events.length > 100 then (.rejected 400, tbls)
  else
    let r := insertEventsPg oracle userId events 0 tbls.pg
    if r.1 then (.accepted events.length, ⟨r.2, tbls.mock⟩)
    else (.accepted events.length, ⟨tbls.pg, insertEventsMock userId events tbls.mock⟩)

/-! ## Startup configuration and the auth middleware

`SupabaseConnection`'s constructor runs at module load (the module exports
`new SupabaseConnection()`) and throws when the Supabase url or service key
is missing, so that error is a startup failure.  `JWT_SECRET` is read only
inside `authMiddleware` (and the token helpers of `routes/auth.ts`), during
request handling.  JavaScript `!process.env.X` is falsy for both an unset and
an empty variable. -/

/-- The environment variables the auth path reads. -/
structure ServerEnv where
  jwtSecret : Option String
  supabaseUrl : Option String
  supabaseServiceKey : Option String

/-- The `SupabaseConnection` constructor, run at process startup: throws when
either variable is missing. -/
def supabaseStartup (env : ServerEnv) : Except String Unit :=
  if jsFalsy env.supabaseUrl ∨ jsFalsy env.supabaseServiceKey then
    .error "Missing Supabase configuration. Please set SUPABASE_URL and SUPABASE_SERVICE_ROLE_KEY environment variables."
  else .ok ()

/-- An `AppError` as thrown by the middleware. -/
structure AppError where
  message : String
  statusCode : Nat
  isOperational : Bool
deriving DecidableEq

/-- Outcome of `authMiddleware` for a request. -/
inductive AuthOutcome
  | authorized (userId : String)
  | failed (e : AppError)
deriving DecidableEq

/-- The slice of an HTTP request the middleware reads. -/
structure HttpRequest where
  authorization : Option String

/-- The decoded JWT payload (`decoded.userId` may be absent). -/
structure TokenPayload where
  userId : Option String

/-- The source `authMiddleware`: require a `Bearer` header, then require the
JWT secret (a 500, detected here, during request handling), then verify the
token (`verify` models `jwt.verify`; verification failures map to 401). -/
def authMiddleware (verify : String → String → Option TokenPayload)
    (env : ServerEnv) (req : HttpRequest) : AuthOutcome :=
  match req.authorization with
  | none => .failed ⟨"Access token required", 401, true⟩
  | some h =>
    if !startsWithChars "Bearer ".data h.data then
      .failed ⟨"Access token required", 401, true⟩
    else if jsFalsy env.jwtSecret then
      .failed ⟨"JWT secret not configured", 500, false⟩
    else
      match verify ⟨h.data.drop 7⟩ (env.jwtSecret.getD "") with
      | none => .failed ⟨"Invalid access token", 401, true⟩
      | some payload =>
        match payload.userId with
        | none => .failed ⟨"Invalid token payload", 401, true⟩
        | some uid => .authorized uid

/-! ## The clustering configuration (`shared/types`) -/

/-- The weight table record of the source (`ClusteringScore` field names). -/
structure ClusteringWeights where
  semantic_shift_below_0_6 : Nat
  majority_shift_over_50pct : Nat
  idle_gap_over_20m : Nat
  new_window_boundary : Nat
  persistence_over_2_snapshots_or_3_tabs : Nat
deriving DecidableEq

/-- The source constant `DEFAULT_CLUSTERING_WEIGHTS`. -/
def DEFAULT_CLUSTERING_WEIGHTS : ClusteringWeights :=
  { semantic_shift_below_0_6 := 3,
    majority_shift_over_50pct := 2,
    idle_gap_over_20m := 1,
    new_window_boundary := 3,
    persistence_over_2_snapshots_or_3_tabs := 2 }

/-- The source constant `PROMOTION_THRESHOLD`. -/
def PROMOTION_THRESHOLD : Nat := 5

/-- The truth values of the five boundary signals for one snapshot
comparison. -/
structure BoundarySignals where
  semanticShift : Bool
  majorityShift : Bool
  idleGap : Bool
  newWindow : Bool
  persistence : Bool
deriving DecidableEq

/-- Modelled from the spec: the repository defines the clustering weight
table and promotion threshold but contains no scorer implementation (a
Phase 3 placeholder); per the spec the decision score is the sum of the
weights of the true signals. -/
def decisionScore (w : ClusteringWeights) (s : BoundarySignals) : Nat :=
  (if s.semanticShift then w.semantic_shift_below_0_6 else 0) +
  (if s.majorityShift then w.majority_shift_over_50pct else 0) +
  (if s.idleGap then w.idle_gap_over_20m else 0) +
  (if s.newWindow then w.new_window_boundary else 0) +
  (if s.persistence then w.persistence_over_2_snapshots_or_3_tabs else 0)

/-- Modelled from the spec: promote to a new session exactly when the score
reaches the promotion threshold. -/
def promoteBoundary (w : ClusteringWeights) (s : BoundarySignals) : Bool :=
  decisionScore w s ≥ PROMOTION_THRESHOLD

/-! ## Concrete fixtures used by witnesses and counterexamples -/

/-- A sample event (window 1, tab 1). -/
def exEvent1 : Event := ⟨1, 1, .«open», "A", "https://a.example/", 0⟩

/-- A second sample event (window 1, tab 2). -/
def exEvent2 : Event := ⟨1, 2, .update, "B", "https://b.example/", 1⟩

/-- A sample store with three pending events. -/
def exStore3 : StorageState :=
  ⟨[⟨exEvent1, 0⟩, ⟨exEvent2, 1⟩, ⟨exEvent1, 2⟩], [], none⟩

/-- An environment with both Supabase variables set but no JWT secret. -/
def exEnvNoJwt : ServerEnv := ⟨none, some "https://supabase.example", some "service-key"⟩

/-- A verifier stub (never reached in the scenarios below). -/
def exVerify : String → String → Option TokenPayload := fun _ _ => none

/-- A sample raw tab on an ordinary page. -/
def exTab : RawTab := ⟨1, 1, "https://example.com/page", "Example"⟩

/-- A raw tab on an ignore-listed internal page. -/
def exIgnoredTab : RawTab := ⟨2, 1, "chrome://settings", "Settings"⟩

/-- A list of 120 copies of a sample event with local ids 0 to 119. -/
def ex120 : List StoredEvent := tagFrom 0 (List.replicate 120 exEvent1)

/-- A storage blob holding the 120 pending events. -/
def exStorage120 : StorageState := ⟨ex120, [], none⟩

/-- A client world with 120 pending stored events, an empty queue and a
credential. -/
def exWorld120 : ClientWorld := ⟨exStorage120, [], some "tok", false, 200⟩

/-- A network oracle whose second call throws and all others succeed. -/
def exOracleExnSecond : Nat → PostResult := fun i => if i = 1 then .exn else .ok

/-- A network oracle whose second call returns an error response without
throwing and all others succeed. -/
def exOracleErrSecond : Nat → PostResult := fun i => if i = 1 then .errResp else .ok

/-! ## No ignore-listed url ever reaches the pending store -/

/-- The invariant: every url recorded anywhere in the client (pending store,
sync queue, tab side table) fails the ignore-list. -/
def goodUrls (w : ClientWorld) : Prop :=
  (∀ ev ∈ w.storage.events, shouldIgnoreUrl ev.event.url = false) ∧
  (∀ ev ∈ w.eventQueue, shouldIgnoreUrl ev.event.url = false) ∧
  (∀ kv ∈ w.storage.tabInfo, shouldIgnoreUrl kv.2.url = false)

theorem splitFirst_eq_none {c : Char} {s a : Chars}
    (h : splitFirst c s = (a, none)) : s = a ∧ c ∉ a := by
  induction s generalizing a with
  | nil =>
    simp only [splitFirst, Prod.mk.injEq] at h
    simp [← h.1]
  | cons x xs ih =>
    by_cases hx : x = c
    · simp [splitFirst, hx] at h
    · rcases hsp : splitFirst c xs with ⟨p, o⟩
      simp only [splitFirst, if_neg hx, hsp, Prod.mk.injEq] at h
      obtain ⟨ha, ho⟩ := h
      subst ho
      obtain ⟨hxs, hm⟩ := ih hsp
      subst hxs
      refine ⟨ha, ?_⟩
      rw [← ha]
      simp only [List.mem_cons, not_or]
      exact ⟨fun hc => hx hc.symm, hm⟩

theorem splitFirst_eq_some {c : Char} {s a b : Chars}
    (h : splitFirst c s = (a, some b)) : s = a ++ c :: b ∧ c ∉ a := by
  induction s generalizing a b with
  | nil => simp [splitFirst] at h
  | cons x xs ih =>
    by_cases hx : x = c
    · simp only [splitFirst, if_pos hx, Prod.mk.injEq, Option.some.injEq] at h
      obtain ⟨ha, hb⟩ := h
      subst hb
      simp [← ha, hx]
    · rcases hsp : splitFirst c xs with ⟨p, o⟩
      simp only [splitFirst, if_neg hx, hsp, Prod.mk.injEq] at h
      obtain ⟨ha, ho⟩ := h
      subst ho
      obtain ⟨hxs, hm⟩ := ih hsp
      subst hxs
      refine ⟨?_, ?_⟩
      · rw [← ha]; rfl
      · rw [← ha]
        simp only [List.mem_cons, not_or]
        exact ⟨fun hc => hx hc.symm, hm⟩

theorem splitFirst_of_not_mem {c : Char} {a : Chars} (h : c ∉ a) :
    splitFirst c a = (a, none) := by
  induction a with
  | nil => rfl
  | cons x xs ih =>
    simp only [List.mem_cons, not_or] at h
    have hx : ¬ x = c := fun hc => h.1 hc.symm
    simp [splitFirst, hx, ih h.2]

theorem splitFirst_append_cons {c : Char} {a b : Chars} (h : c ∉ a) :
    splitFirst c (a ++ c :: b) = (a, some b) := by
  induction a with
  | nil => simp [splitFirst]
  | cons x xs ih =>
    simp only [List.mem_cons, not_or] at h
    have hx : ¬ x = c := fun hc => h.1 hc.symm
    simp [splitFirst, hx, ih h.2]

theorem splitAll_ne_nil (c : Char) (s : Chars) : splitAll c s ≠ [] := by
  induction s with
  | nil => simp [splitAll]
  | cons x xs ih =>
    by_cases hx : x = c
    · simp [splitAll, hx]
    · rcases hsp : splitAll c xs with _ | ⟨p, ps⟩
      · exact absurd hsp ih
      · simp [splitAll, hx, hsp]

theorem not_mem_of_mem_splitAll {c : Char} {s p : Chars}
    (hp : p ∈ splitAll c s) : c ∉ p := by
  induction s generalizing p with
  | nil =>
    simp only [splitAll, List.mem_singleton] at hp
    subst hp; simp
  | cons x xs ih =>
    by_cases hx : x = c
    · simp only [splitAll, if_pos hx, List.mem_cons] at hp
      rcases hp with rfl | hp
      · simp
      · exact ih hp
    · rcases hsp : splitAll c xs with _ | ⟨q, ps⟩
      · exact absurd hsp (splitAll_ne_nil c xs)
      · simp only [splitAll, if_neg hx, hsp, List.mem_cons] at hp
        rcases hp with rfl | hp
        · have hq : c ∉ q := ih (by rw [hsp]; exact List.mem_cons_self q ps)
          simp only [List.mem_cons, not_or]
          exact ⟨fun hc => hx hc.symm, hq⟩
        · exact ih (by rw [hsp]; exact List.mem_cons_of_mem q hp)

theorem mem_of_mem_splitAll {c : Char} {s p : Chars} {x : Char}
    (hp : p ∈ splitAll c s) (hx : x ∈ p) : x ∈ s := by
  induction s generalizing p with
  | nil =>
    simp only [splitAll, List.mem_singleton] at hp
    subst hp; simp at hx
  | cons y ys ih =>
    by_cases hy : y = c
    · simp only [splitAll, if_pos hy, List.mem_cons] at hp
      rcases hp with rfl | hp
      · simp at hx
      · exact List.mem_cons_of_mem y (ih hp hx)
    · rcases hsp : splitAll c ys with _ | ⟨q, ps⟩
      · exact absurd hsp (splitAll_ne_nil c ys)
      · simp only [splitAll, if_neg hy, hsp, List.mem_cons] at hp
        rcases hp with rfl | hp
        · rcases List.mem_cons.mp hx with rfl | hx
          · exact List.mem_cons_self x ys
          · exact List.mem_cons_of_mem y
              (ih (by rw [hsp]; exact List.mem_cons_self q ps) hx)
        · exact List.mem_cons_of_mem y
            (ih (by rw [hsp]; exact List.mem_cons_of_mem q hp) hx)

theorem splitAll_of_not_mem {c : Char} {a : Chars} (h : c ∉ a) :
    splitAll c a = [a] := by
  induction a with
  | nil => rfl
  | cons x xs ih =>
    simp only [List.mem_cons, not_or] at h
    have hx : ¬ x = c := fun hc => h.1 hc.symm
    simp [splitAll, hx, ih h.2]

theorem splitAll_append_cons {c : Char} {a b : Chars} (h : c ∉ a) :
    splitAll c (a ++ c :: b) = a :: splitAll c b := by
  induction a with
  | nil => simp [splitAll]
  | cons x xs ih =>
    simp only [List.mem_cons, not_or] at h
    have hx : ¬ x = c := fun hc => h.1 hc.symm
    have := ih h.2
    rcases hsp : splitAll c (xs ++ c :: b) with _ | ⟨q, ps⟩
    · exact absurd hsp (splitAll_ne_nil c _)
    · rw [hsp] at this
      obtain ⟨rfl, rfl⟩ : q = xs ∧ ps = splitAll c b := by
        have h1 := this
        injection h1 with h1a h1b
        exact ⟨h1a, h1b⟩
      simp [splitAll, hx, hsp]

theorem splitAll_joinAll {c : Char} {ps : List Chars}
    (hne : ps ≠ []) (hall : ∀ p ∈ ps, c ∉ p) :
    splitAll c (joinAll c ps) = ps := by
  induction ps with
  | nil => exact absurd rfl hne
  | cons a rest ih =>
    rcases rest with _ | ⟨b, rest2⟩
    · simpa [joinAll] using splitAll_of_not_mem (hall a (List.mem_cons_self a []))
    · have ha : c ∉ a := hall a (List.mem_cons_self a _)
      have hrest : ∀ p ∈ b :: rest2, c ∉ p := fun p hp =>
        hall p (List.mem_cons_of_mem a hp)
      have := ih (by simp) hrest
      simpa [joinAll, splitAll_append_cons ha] using this

theorem mem_joinAll {c : Char} {ps : List Chars} {x : Char}
    (hx : x ∈ joinAll c ps) : x = c ∨ ∃ p ∈ ps, x ∈ p := by
  induction ps with
  | nil => simp [joinAll] at hx
  | cons a rest ih =>
    rcases rest with _ | ⟨b, rest2⟩
    · exact Or.inr ⟨a, List.mem_cons_self a [], by simpa [joinAll] using hx⟩
    · simp only [joinAll, List.mem_append, List.mem_cons] at hx
      rcases hx with ha | hc | hrest
      · exact Or.inr ⟨a, List.mem_cons_self a _, ha⟩
      · exact Or.inl hc
      · rcases ih hrest with hc | ⟨p, hp, hxp⟩
        · exact Or.inl hc
        · exact Or.inr ⟨p, List.mem_cons_of_mem a hp, hxp⟩

theorem wfParams_parseQuery {q : Chars} (hq : '#' ∉ q) : wfParams (parseQuery q) := by
  intro kv hkv
  obtain ⟨piece, hpiece, hkv⟩ := List.mem_map.mp hkv
  have hpmem : piece ∈ splitAll '&' q := List.mem_of_mem_filter hpiece
  have hamp : '&' ∉ piece := not_mem_of_mem_splitAll hpmem
  have hsub : ∀ x, x ∈ piece → x ∈ q := fun x hx => mem_of_mem_splitAll hpmem hx
  have hhash : '#' ∉ piece := fun hx => hq (hsub _ hx)
  rcases hsp : splitFirst '=' piece with ⟨k, o⟩
  rcases o with _ | v
  · obtain ⟨hpk, hkeq⟩ := splitFirst_eq_none hsp
    subst hpk
    rw [parsePiece, hsp] at hkv
    subst hkv
    exact ⟨⟨hkeq, hamp, hhash⟩, by simp [wfVal]⟩
  · obtain ⟨hpk, hkeq⟩ := splitFirst_eq_some hsp
    rw [parsePiece, hsp] at hkv
    subst hkv
    have hvk : ∀ x, x ∈ k → x ∈ piece := by
      intro x hx; rw [hpk]; exact List.mem_append_left _ hx
    have hvv : ∀ x, x ∈ v → x ∈ piece := by
      intro x hx; rw [hpk]
      exact List.mem_append_right _ (List.mem_cons_of_mem _ hx)
    refine ⟨⟨hkeq, fun hx => hamp (hvk _ hx), fun hx => hhash (hvk _ hx)⟩,
      fun hx => hamp (hvv _ hx), fun hx => hhash (hvv _ hx)⟩

theorem parseQuery_nil : parseQuery [] = [] := rfl

theorem parseUrl_wf {s : Chars} {u : UrlObj} (h : parseUrl s = some u) :
    wfUrl u := by
  rcases h1 : splitFirst '#' s with ⟨bf, fo⟩
  rcases h2 : splitFirst '?' bf with ⟨base, qo⟩
  simp only [parseUrl, h1, h2] at h
  by_cases hv : validBase base
  · rw [if_pos hv] at h
    injection h with h
    subst h
    have hbf_nohash : '#' ∉ bf := by
      rcases fo with _ | f
      · exact (splitFirst_eq_none h1).2
      · exact (splitFirst_eq_some h1).2
    rcases qo with _ | q
    · obtain ⟨hbase, hq⟩ := splitFirst_eq_none h2
      subst hbase
      exact ⟨⟨hv, hq, hbf_nohash⟩, by simpa [parseQuery_nil] using @wfParams_parseQuery [] (by simp)⟩
    · obtain ⟨hbf, hnoq⟩ := splitFirst_eq_some h2
      have hbase_nohash : '#' ∉ base := by
        intro hx; exact hbf_nohash (by rw [hbf]; exact List.mem_append_left _ hx)
      have hq_nohash : '#' ∉ q := by
        intro hx
        exact hbf_nohash (by rw [hbf]; exact List.mem_append_right _ (List.mem_cons_of_mem _ hx))
      exact ⟨⟨hv, hnoq, hbase_nohash⟩, wfParams_parseQuery hq_nohash⟩
  · rw [if_neg hv] at h
    exact absurd h (by simp)

theorem serializePair_ne_nil (kv : Chars × Chars) :
    (serializePair kv).isEmpty = false := by
  rcases kv with ⟨k, v⟩
  rcases k with _ | ⟨x, xs⟩ <;> simp [serializePair]

theorem not_mem_serializeQuery {ps : List (Chars × Chars)} {x : Char}
    (hx1 : x ≠ '&') (hx2 : x ≠ '=')
    (hx3 : ∀ kv ∈ ps, x ∉ kv.1 ∧ x ∉ kv.2) :
    x ∉ serializeQuery ps := by
  intro hmem
  rcases mem_joinAll hmem with hc | ⟨piece, hpiece, hxp⟩
  · exact hx1 hc
  · obtain ⟨kv, hkv, hpe⟩ := List.mem_map.mp hpiece
    subst hpe
    rcases kv with ⟨k, v⟩
    rcases List.mem_append.mp hxp with hk | hv
    · exact (hx3 _ hkv).1 hk
    · rcases List.mem_cons.mp hv with rfl | hv
      · exact hx2 rfl
      · exact (hx3 _ hkv).2 hv

theorem parseQuery_serializeQuery {ps : List (Chars × Chars)}
    (hne : ps ≠ []) (hwf : wfParams ps) :
    parseQuery (serializeQuery ps) = ps := by
  have hpieces : ∀ piece ∈ ps.map serializePair, '&' ∉ piece := by
    intro piece hpiece
    obtain ⟨kv, hkv, hpe⟩ := List.mem_map.mp hpiece
    subst hpe
    rcases kv with ⟨k, v⟩
    intro hmem
    rcases List.mem_append.mp hmem with hk | hv
    · exact ((hwf _ hkv).1.2.1) hk
    · rcases List.mem_cons.mp hv with h | hv
      · exact absurd h (by decide)
      · exact ((hwf _ hkv).2.1) hv
  have hsplit : splitAll '&' (serializeQuery ps) = ps.map serializePair :=
    splitAll_joinAll (by simpa using hne) hpieces
  rw [parseQuery, hsplit]
  have hfilter : (ps.map serializePair).filter (fun p => !p.isEmpty)
      = ps.map serializePair := by
    apply List.filter_eq_self.mpr
    intro piece hpiece
    obtain ⟨kv, _, hpe⟩ := List.mem_map.mp hpiece
    subst hpe
    simp [serializePair_ne_nil]
  rw [hfilter, List.map_map]
  have hid : ∀ kv ∈ ps, (parsePiece ∘ serializePair) kv = kv := by
    intro kv hkv
    rcases kv with ⟨k, v⟩
    have hkeq : '=' ∉ k := (hwf _ hkv).1.1
    simp [Function.comp, serializePair, parsePiece, splitFirst_append_cons hkeq]
  calc ps.map (parsePiece ∘ serializePair) = ps.map id := List.map_congr_left hid
    _ = ps := List.map_id ps

theorem parseUrl_serializeUrl {u : UrlObj} (hwf : wfUrl u) :
    parseUrl (serializeUrl u) = some u := by
  obtain ⟨⟨hvb, hnq, hnh⟩, hwp⟩ := hwf
  rcases u with ⟨base, params, frag⟩
  rcases params with _ | ⟨kv, rest⟩
  · rcases frag with _ | f
    · simp only [serializeUrl, List.append_nil]
      simp only [parseUrl, splitFirst_of_not_mem hnh,
        splitFirst_of_not_mem hnq, if_pos hvb, Option.getD_none, parseQuery_nil]
    · simp only [serializeUrl, List.append_nil]
      simp only [parseUrl, splitFirst_append_cons hnh,
        splitFirst_of_not_mem hnq, if_pos hvb, Option.getD_none, parseQuery_nil]
  · have hsq_nohash : '#' ∉ serializeQuery (kv :: rest) := by
      intro hmem
      exact not_mem_serializeQuery (by decide) (by decide)
        (fun kv2 hkv2 => ⟨(hwp _ hkv2).1.2.2, (hwp _ hkv2).2.2⟩) hmem
    have hsq_parse : parseQuery (serializeQuery (kv :: rest)) = kv :: rest :=
      parseQuery_serializeQuery (by simp) hwp
    have hbq_nohash : '#' ∉ base ++ '?' :: serializeQuery (kv :: rest) := by
      intro hmem
      rcases List.mem_append.mp hmem with h | h
      · exact hnh h
      · rcases List.mem_cons.mp h with h | h
        · exact absurd h (by decide)
        · exact hsq_nohash h
    rcases frag with _ | f
    · simp only [serializeUrl, List.append_nil]
      simp only [parseUrl, splitFirst_of_not_mem hbq_nohash,
        splitFirst_append_cons hnq, if_pos hvb, Option.getD_some, hsq_parse]
    · simp only [serializeUrl]
      simp only [parseUrl, splitFirst_append_cons hbq_nohash,
        splitFirst_append_cons hnq, if_pos hvb, Option.getD_some, hsq_parse]

theorem countKey_nil (p : Chars) : countKey p [] = 0 := rfl

theorem countKey_cons (p : Chars) (kv : Chars × Chars) (l : List (Chars × Chars)) :
    countKey p (kv :: l) = (if kv.1 = p then 1 else 0) + countKey p l := by
  by_cases h : kv.1 = p
  · simp [countKey, List.countP_cons, h, Nat.add_comm]
  · simp [countKey, List.countP_cons, h]

theorem not_mem_removeParam (p v : Chars) (l : List (Chars × Chars)) :
    (p, v) ∉ removeParam p l := by
  intro hmem
  have := List.of_mem_filter hmem
  simp at this

theorem mem_removeParam {p : Chars} {kv : Chars × Chars} {l : List (Chars × Chars)}
    (h : kv ∈ removeParam p l) : kv ∈ l := List.mem_of_mem_filter h

theorem countKey_removeParam_self (p : Chars) (l : List (Chars × Chars)) :
    countKey p (removeParam p l) = 0 := by
  induction l with
  | nil => rfl
  | cons kv rest ih =>
    by_cases h : kv.1 = p
    · simp [removeParam, List.filter, h, ih]
      simpa [removeParam] using ih
    · simp only [removeParam] at ih ⊢
      rw [List.filter_cons_of_pos (by simpa using h)]
      rw [countKey_cons, if_neg h, ih]

theorem countKey_removeParam_ne {p q : Chars} (hpq : p ≠ q) (l : List (Chars × Chars)) :
    countKey p (removeParam q l) = countKey p l := by
  induction l with
  | nil => rfl
  | cons kv rest ih =>
    by_cases h : kv.1 = q
    · simp only [removeParam] at ih ⊢
      rw [List.filter_cons_of_neg (by simpa using h)]
      rw [ih, countKey_cons, if_neg (by rw [h]; exact fun hc => hpq hc.symm)]
      simp
    · simp only [removeParam] at ih ⊢
      rw [List.filter_cons_of_pos (by simpa using h)]
      rw [countKey_cons, countKey_cons, ih]

theorem removeParam_eq_self {p : Chars} {l : List (Chars × Chars)}
    (h : countKey p l = 0) : removeParam p l = l := by
  induction l with
  | nil => rfl
  | cons kv rest ih =>
    rw [countKey_cons] at h
    by_cases hk : kv.1 = p
    · rw [if_pos hk] at h; omega
    · rw [if_neg hk, Nat.zero_add] at h
      simp only [removeParam] at ih ⊢
      rw [List.filter_cons_of_pos (by simpa using hk), ih h]

theorem mem_setParam {p v : Chars} {kv : Chars × Chars} {l : List (Chars × Chars)}
    (h : kv ∈ setParam p v l) : kv = (p, v) ∨ kv ∈ l := by
  induction l with
  | nil =>
    simp only [setParam, List.mem_singleton] at h
    exact Or.inl h
  | cons kw rest ih =>
    rcases kw with ⟨k, w⟩
    by_cases hk : k = p
    · simp only [setParam, if_pos hk, List.mem_cons] at h
      rcases h with rfl | h
      · exact Or.inl rfl
      · exact Or.inr (List.mem_cons_of_mem _ (mem_removeParam h))
    · simp only [setParam, if_neg hk, List.mem_cons] at h
      rcases h with rfl | h
      · exact Or.inr (List.mem_cons_self _ _)
      · rcases ih h with h | h
        · exact Or.inl h
        · exact Or.inr (List.mem_cons_of_mem _ h)

theorem mem_setParam_self {p v w : Chars} {l : List (Chars × Chars)}
    (h : (p, w) ∈ setParam p v l) : w = v := by
  induction l with
  | nil =>
    simp only [setParam, List.mem_singleton, Prod.mk.injEq] at h
    exact h.2
  | cons kw rest ih =>
    rcases kw with ⟨k, w2⟩
    by_cases hk : k = p
    · simp only [setParam, if_pos hk, List.mem_cons, Prod.mk.injEq] at h
      rcases h with ⟨_, h⟩ | h
      · exact h
      · exact absurd h (not_mem_removeParam p w rest)
    · simp only [setParam, if_neg hk, List.mem_cons, Prod.mk.injEq] at h
      rcases h with ⟨h, _⟩ | h
      · exact absurd h.symm hk
      · exact ih h

theorem countKey_setParam_self (p v : Chars) (l : List (Chars × Chars)) :
    countKey p (setParam p v l) = 1 := by
  induction l with
  | nil => simp [setParam, countKey_cons, countKey_nil]
  | cons kw rest ih =>
    rcases kw with ⟨k, w⟩
    by_cases hk : k = p
    · simp only [setParam, if_pos hk]
      rw [countKey_cons, if_pos rfl, countKey_removeParam_self]
    · simp only [setParam, if_neg hk]
      rw [countKey_cons, if_neg hk, ih]

theorem countKey_setParam_ne {p q : Chars} (hpq : p ≠ q) (v : Chars)
    (l : List (Chars × Chars)) : countKey p (setParam q v l) = countKey p l := by
  induction l with
  | nil =>
    show countKey p [(q, v)] = countKey p []
    rw [countKey_cons, if_neg (fun hc : (q, v).1 = p => hpq hc.symm)]
    simp
  | cons kw rest ih =>
    rcases kw with ⟨k, w⟩
    by_cases hk : k = q
    · simp only [setParam, if_pos hk]
      rw [countKey_cons, if_neg (fun hc : q = p => hpq hc.symm),
        countKey_removeParam_ne hpq, countKey_cons, hk,
        if_neg (fun hc : q = p => hpq hc.symm)]
    · simp only [setParam, if_neg hk]
      rw [countKey_cons, countKey_cons, ih]

theorem hasParam_false_not_mem {p v : Chars} {l : List (Chars × Chars)}
    (h : hasParam p l = false) : (p, v) ∉ l := by
  induction l with
  | nil => simp
  | cons kw rest ih =>
    rcases kw with ⟨k, w⟩
    simp only [hasParam, Bool.or_eq_false_iff, decide_eq_false_iff_not] at h
    intro hmem
    rcases List.mem_cons.mp hmem with heq | hmem
    · exact h.1 (by injection heq with h1 _; exact h1.symm)
    · exact ih h.2 hmem

theorem hasParam_false_countKey {p : Chars} {l : List (Chars × Chars)}
    (h : hasParam p l = false) : countKey p l = 0 := by
  induction l with
  | nil => rfl
  | cons kw rest ih =>
    rcases kw with ⟨k, w⟩
    simp only [hasParam, Bool.or_eq_false_iff, decide_eq_false_iff_not] at h
    rw [countKey_cons, if_neg h.1, ih h.2]

theorem setParam_eq_self {p v : Chars} {l : List (Chars × Chars)}
    (hhas : hasParam p l = true) (hcount : countKey p l ≤ 1)
    (hval : ∀ w, (p, w) ∈ l → w = v) : setParam p v l = l := by
  induction l with
  | nil => simp [hasParam] at hhas
  | cons kw rest ih =>
    rcases kw with ⟨k, w⟩
    by_cases hk : k = p
    · subst hk
      have hw : w = v := hval w (List.mem_cons_self _ _)
      subst hw
      rw [countKey_cons, if_pos rfl] at hcount
      have hrest : countKey k rest = 0 := by omega
      simp [setParam, removeParam_eq_self hrest]
    · simp only [hasParam, if_neg hk, Bool.or_eq_true, decide_eq_true_eq] at hhas
      rcases hhas with h | hhas
      · exact absurd h hk
      · rw [countKey_cons, if_neg hk, Nat.zero_add] at hcount
        have := ih hhas hcount (fun w2 hw2 => hval w2 (List.mem_cons_of_mem _ hw2))
        simp only [setParam, if_neg hk, this]

theorem goodParam_setParam_self (p : Chars) (l : List (Chars × Chars)) :
    goodParam p (setParam p redactedMarker l) := by
  refine ⟨by rw [countKey_setParam_self], fun w hw => mem_setParam_self hw⟩

theorem goodParam_setParam_ne {p q : Chars} (hpq : p ≠ q) (v : Chars)
    {l : List (Chars × Chars)} (h : goodParam p l) :
    goodParam p (setParam q v l) := by
  refine ⟨by rw [countKey_setParam_ne hpq]; exact h.1, fun w hw => ?_⟩
  rcases mem_setParam hw with heq | hmem
  · exact absurd (congrArg Prod.fst heq) hpq
  · exact h.2 w hmem

theorem goodParam_of_not_has {p : Chars} {l : List (Chars × Chars)}
    (h : hasParam p l = false) : goodParam p l :=
  ⟨by rw [hasParam_false_countKey h]; exact Nat.zero_le 1,
    fun w hw => absurd hw (hasParam_false_not_mem h)⟩

theorem goodParam_redactStep {p q : Chars} {l : List (Chars × Chars)}
    (h : goodParam p l) : goodParam p (redactStep l q) := by
  unfold redactStep
  by_cases hhas : hasParam q l = true
  · rw [if_pos hhas]
    by_cases hpq : p = q
    · subst hpq; exact goodParam_setParam_self p l
    · exact goodParam_setParam_ne hpq _ h
  · rw [if_neg hhas]; exact h

theorem goodParam_redactStep_self (q : Chars) (l : List (Chars × Chars)) :
    goodParam q (redactStep l q) := by
  unfold redactStep
  by_cases hhas : hasParam q l = true
  · rw [if_pos hhas]; exact goodParam_setParam_self q l
  · rw [if_neg hhas]
    exact goodParam_of_not_has (by revert hhas; cases hasParam q l <;> simp)

theorem goodParam_foldl {p : Chars} {l : List (Chars × Chars)} {qs : List Chars}
    (h : goodParam p l) : goodParam p (qs.foldl redactStep l) := by
  induction qs generalizing l with
  | nil => exact h
  | cons q rest ih => exact ih (goodParam_redactStep h)

theorem goodParam_foldl_mem {qs : List Chars} {l : List (Chars × Chars)} :
    ∀ p ∈ qs, goodParam p (qs.foldl redactStep l) := by
  induction qs generalizing l with
  | nil => simp
  | cons q rest ih =>
    intro p hp
    rw [List.foldl_cons]
    rcases List.mem_cons.mp hp with rfl | hp
    · exact goodParam_foldl (goodParam_redactStep_self p l)
    · exact ih p hp

theorem foldl_redactStep_eq_self {qs : List Chars} {l : List (Chars × Chars)}
    (h : ∀ p ∈ qs, goodParam p l) : qs.foldl redactStep l = l := by
  induction qs with
  | nil => rfl
  | cons q rest ih =>
    have hq := h q (List.mem_cons_self _ _)
    have hstep : redactStep l q = l := by
      unfold redactStep
      by_cases hhas : hasParam q l = true
      · rw [if_pos hhas]
        exact setParam_eq_self hhas hq.1 hq.2
      · rw [if_neg hhas]
    rw [List.foldl_cons, hstep]
    exact ih (fun p hp => h p (List.mem_cons_of_mem _ hp))

theorem redactParams_idem (l : List (Chars × Chars)) :
    redactParams (redactParams l) = redactParams l :=
  foldl_redactStep_eq_self (fun p hp => goodParam_foldl_mem p hp)

theorem wfKey_sensitive : ∀ p ∈ sensitiveParams, wfKey p := by decide

theorem wfVal_redactedMarker : wfVal redactedMarker := by decide

theorem wfParams_setParam {p v : Chars} {l : List (Chars × Chars)}
    (hl : wfParams l) (hp : wfKey p) (hv : wfVal v) : wfParams (setParam p v l) := by
  intro kv hkv
  rcases mem_setParam hkv with rfl | hkv
  · exact ⟨hp, hv⟩
  · exact hl kv hkv

theorem wfParams_foldl_redactStep {qs : List Chars} {l : List (Chars × Chars)}
    (hqs : ∀ q ∈ qs, wfKey q) (hl : wfParams l) :
    wfParams (qs.foldl redactStep l) := by
  induction qs generalizing l with
  | nil => exact hl
  | cons q rest ih =>
    refine ih (fun q2 hq2 => hqs q2 (List.mem_cons_of_mem _ hq2)) ?_
    unfold redactStep
    by_cases hhas : hasParam q l = true
    · rw [if_pos hhas]
      exact wfParams_setParam hl (hqs q (List.mem_cons_self _ _)) wfVal_redactedMarker
    · rw [if_neg hhas]; exact hl

theorem wfParams_redactParams {l : List (Chars × Chars)} (hl : wfParams l) :
    wfParams (redactParams l) :=
  wfParams_foldl_redactStep wfKey_sensitive hl

/-! ## Theorems: clustering configuration, local store, acknowledgement, sync no-op -/

/-- C9: the fixed clustering configuration assigns exactly the documented
weights (semantic shift 3, majority shift 2, idle gap 1, new window 3,
persistence 2) and promotion threshold 5, and the decision score is the sum
of the weights of the true signals, compared against 5. -/
theorem clustering_weights_and_decision (b1 b2 b3 b4 b5 : Bool) :
    DEFAULT_CLUSTERING_WEIGHTS = ⟨3, 2, 1, 3, 2⟩ ∧
    PROMOTION_THRESHOLD = 5 ∧
    decisionScore DEFAULT_CLUSTERING_WEIGHTS ⟨b1, b2, b3, b4, b5⟩ =
      (cond b1 3 0) + (cond b2 2 0) + (cond b3 1 0) + (cond b4 3 0) + (cond b5 2 0) ∧
    promoteBoundary DEFAULT_CLUSTERING_WEIGHTS ⟨b1, b2, b3, b4, b5⟩ =
      decide (decisionScore DEFAULT_CLUSTERING_WEIGHTS ⟨b1, b2, b3, b4, b5⟩ ≥ 5) := by
  refine ⟨rfl, rfl, ?_, ?_⟩ <;>
    cases b1 <;> cases b2 <;> cases b3 <;> cases b4 <;> cases b5 <;> rfl

/-- C8: with no auth token, a sync invocation is a pure no-op: the world is
returned unchanged (store, queue, side table, flags) and no network call is
made. -/
theorem sync_without_token_is_noop (now : Nat) (oracle : Nat → PostResult)
    (storage : StorageState) (queue : List StoredEvent) (prog : Bool) (n : Nat) :
    syncPendingEvents now oracle ⟨storage, queue, none, prog, n⟩ =
      (⟨storage, queue, none, prog, n⟩, []) := by
  unfold syncPendingEvents
  simp [jsFalsy]

theorem storeEvent_events (id : Nat) (e : Event) (st : StorageState) :
    (storeEvent id e st).events =
      (st.events ++ [(⟨e, id⟩ : StoredEvent)]).drop
        ((st.events ++ [(⟨e, id⟩ : StoredEvent)]).length - MAX_LOCAL_EVENTS) := by
  unfold storeEvent
  by_cases h : (st.events ++ [(⟨e, id⟩ : StoredEvent)]).length > MAX_LOCAL_EVENTS
  · simp only [if_pos h, takeLast]
  · simp only [if_neg h]
    have h0 : (st.events ++ [(⟨e, id⟩ : StoredEvent)]).length - MAX_LOCAL_EVENTS = 0 := by
      omega
    rw [h0, List.drop_zero]

theorem storeEvent_length_le {st : StorageState}
    (h : st.events.length ≤ MAX_LOCAL_EVENTS) (id : Nat) (e : Event) :
    (storeEvent id e st).events.length ≤ MAX_LOCAL_EVENTS := by
  rw [storeEvent_events]
  simp only [List.length_drop]
  omega

theorem tagFrom_length (n : Nat) (es : List Event) :
    (tagFrom n es).length = es.length := by
  induction es generalizing n with
  | nil => rfl
  | cons e rest ih => simp [tagFrom, ih]

theorem tagFrom_map_event (n : Nat) (es : List Event) :
    (tagFrom n es).map StoredEvent.event = es := by
  induction es generalizing n with
  | nil => rfl
  | cons e rest ih => simp [tagFrom, ih]

theorem dropCap_dropCap_append {α : Type} (m T : List α) :
    (m.drop (m.length - MAX_LOCAL_EVENTS) ++ T).drop
      ((m.drop (m.length - MAX_LOCAL_EVENTS) ++ T).length - MAX_LOCAL_EVENTS) =
    (m ++ T).drop ((m ++ T).length - MAX_LOCAL_EVENTS) := by
  have hk : m.length - MAX_LOCAL_EVENTS ≤ m.length := Nat.sub_le _ _
  rw [← List.drop_append_of_le_length hk, List.drop_drop]
  have hidx : m.length - MAX_LOCAL_EVENTS +
      (((m ++ T).drop (m.length - MAX_LOCAL_EVENTS)).length - MAX_LOCAL_EVENTS) =
      (m ++ T).length - MAX_LOCAL_EVENTS := by
    simp only [List.length_append, List.length_drop]
    omega
  rw [hidx]

theorem storeAll_events (es : List Event) : ∀ (n : Nat) (st : StorageState),
    st.events.length ≤ MAX_LOCAL_EVENTS →
    (storeAll n es st).events =
      (st.events ++ tagFrom n es).drop
        ((st.events ++ tagFrom n es).length - MAX_LOCAL_EVENTS) := by
  induction es with
  | nil =>
    intro n st h
    simp only [storeAll, tagFrom, List.append_nil]
    have h0 : st.events.length - MAX_LOCAL_EVENTS = 0 := by omega
    rw [h0, List.drop_zero]
  | cons e rest ih =>
    intro n st h
    show (storeAll (n + 1) rest (storeEvent n e st)).events = _
    rw [ih (n + 1) _ (storeEvent_length_le h n e), storeEvent_events,
      dropCap_dropCap_append]
    have hassoc : st.events ++ [(⟨e, n⟩ : StoredEvent)] ++ tagFrom (n + 1) rest =
        st.events ++ tagFrom n (e :: rest) := by
      rw [List.append_assoc]; rfl
    rw [hassoc]

theorem map_event_drop (l : List StoredEvent) (k : Nat) :
    (l.drop k).map StoredEvent.event = (l.map StoredEvent.event).drop k := by
  induction l generalizing k with
  | nil => simp
  | cons x xs ih =>
    cases k with
    | zero => simp
    | succ k2 => simp only [List.drop_succ_cons, List.map_cons]; exact ih k2

/-- C4: reading `pending()` after any sequence of appends yields the appended
events in insertion order, and when the number of appends exceeds the fixed
capacity of 1000, exactly the most recent 1000 remain (oldest evicted
first): the result is always the length-capped suffix of the append
sequence. -/
theorem pending_insertion_order_and_fifo_eviction (es : List Event) :
    getPendingEvents (storeAll 0 es ⟨[], [], none⟩) =
      (tagFrom 0 es).drop (es.length - MAX_LOCAL_EVENTS) ∧
    (getPendingEvents (storeAll 0 es ⟨[], [], none⟩)).map StoredEvent.event =
      es.drop (es.length - MAX_LOCAL_EVENTS) := by
  have h := storeAll_events es 0 ⟨[], [], none⟩ (by simp)
  simp only [List.nil_append] at h
  have h1 : getPendingEvents (storeAll 0 es ⟨[], [], none⟩) =
      (tagFrom 0 es).drop (es.length - MAX_LOCAL_EVENTS) := by
    rw [getPendingEvents, h, tagFrom_length]
  refine ⟨h1, ?_⟩
  rw [h1, map_event_drop, tagFrom_map_event]

/-- C10: acknowledgement removes exactly the pending events whose local id is
in the given list: membership in the result is membership before minus the
acknowledged ids, the result is a sublist of the original (relative order
kept), and when none of the ids matches a pending event the store is
unchanged. -/
theorem acknowledge_removes_exactly_ids (now : Nat) (ids : List Nat)
    (st : StorageState) :
    (∀ ev : StoredEvent, ev ∈ (markEventsSynced now ids st).events ↔
      ev ∈ st.events ∧ ev.localId ∉ ids) ∧
    List.Sublist (markEventsSynced now ids st).events st.events ∧
    ((∀ i ∈ ids, ∀ ev ∈ st.events, ev.localId ≠ i) →
      (markEventsSynced now ids st).events = st.events) := by
  refine ⟨fun ev => ?_, List.filter_sublist _, fun hnone => ?_⟩
  · show ev ∈ st.events.filter (fun e => !ids.contains e.localId) ↔ _
    rw [List.mem_filter]
    simp [List.contains]
  · show st.events.filter (fun e => !ids.contains e.localId) = st.events
    apply List.filter_eq_self.mpr
    intro ev hev
    have hnm : ev.localId ∉ ids := fun hmem => hnone ev.localId hmem ev hev rfl
    simp [List.contains, hnm]

/-! ## Theorems: ingestion endpoint, startup configuration, event capture -/

theorem insertEventsMock_eq (userId : String) :
    ∀ (events : List Event) (tbl : List ServerEvent),
    insertEventsMock userId events tbl = tbl ++ events.map (eventRow userId) := by
  intro events
  induction events with
  | nil => intro tbl; simp [insertEventsMock]
  | cons e rest ih =>
    intro tbl
    rw [insertEventsMock, ih (tbl ++ [eventRow userId e])]
    simp

theorem insertEventsPg_ok (oracle : Nat → Bool) (userId : String) :
    ∀ (events : List Event) (i : Nat) (tbl : List ServerEvent),
    (insertEventsPg oracle userId events i tbl).1 = true →
    (insertEventsPg oracle userId events i tbl).2 =
      tbl ++ events.map (eventRow userId) := by
  intro events
  induction events with
  | nil => intro i tbl _; simp [insertEventsPg]
  | cons e rest ih =>
    intro i tbl h
    by_cases ho : oracle i = true
    · rw [insertEventsPg, if_pos ho] at h ⊢
      rw [ih (i + 1) (tbl ++ [eventRow userId e]) h]
      simp
    · rw [insertEventsPg, if_neg ho] at h
      simp at h

/-- C2: persistence of a batch is all-or-nothing on every reachable backend:
the mock backend persists the whole batch (its inserts are infallible for
the route's validated calls); the Supabase backend persists nothing (the raw
client passed by its `transaction` has no `query` method, so the first
insert throws); and the pg backend either commits the whole batch to the
PostgreSQL table or, when a mid-batch INSERT fails, rolls that table back
untouched and re-runs the whole batch on the mock fallback — in every case
each store ends either unchanged or extended by the entire batch, never by a
proper nonempty part of it. -/
theorem batch_persistence_all_or_nothing (oracle : Nat → Bool) (userId : String)
    (events : List Event) (tbl : List ServerEvent) (tbls : DbTables) :
    ((postBatchMock userId events tbl).2 = tbl ∨
      (postBatchMock userId events tbl).2 = tbl ++ events.map (eventRow userId)) ∧
    (postBatchSupabase userId events tbl).2 = tbl ∧
    ((postBatchPgFallback oracle userId events tbls).2.pg = tbls.pg ∨
      (postBatchPgFallback oracle userId events tbls).2.pg =
        tbls.pg ++ events.map (eventRow userId)) ∧
    ((postBatchPgFallback oracle userId events tbls).2.mock = tbls.mock ∨
      (postBatchPgFallback oracle userId events tbls).2.mock =
        tbls.mock ++ events.map (eventRow userId)) := by
  by_cases hguard : events.length < 1 ∨ events.length > 100
  · rw [postBatchMock, if_pos hguard, postBatchSupabase, if_pos hguard,
      postBatchPgFallback, if_pos hguard]
    exact ⟨Or.inl rfl, rfl, Or.inl rfl, Or.inl rfl⟩
  · rw [postBatchMock, if_neg hguard, postBatchSupabase, if_neg hguard,
      postBatchPgFallback, if_neg hguard]
    refine ⟨Or.inr (insertEventsMock_eq userId events tbl), rfl, ?_, ?_⟩
    · by_cases hr : (insertEventsPg oracle userId events 0 tbls.pg).1 = true
      · refine Or.inr ?_
        simp only [hr, if_true]
        exact insertEventsPg_ok oracle userId events 0 tbls.pg hr
      · refine Or.inl ?_
        simp [hr]
    · by_cases hr : (insertEventsPg oracle userId events 0 tbls.pg).1 = true
      · refine Or.inl ?_
        simp [hr]
      · refine Or.inr ?_
        simp only [hr, if_false, Bool.false_eq_true]
        exact insertEventsMock_eq userId events tbls.mock

/-- C7 amended: a missing Supabase credential fails at startup (the
connection constructor throws at module load), but a missing JWT signing
secret does not fail startup: it is first detected during request handling,
where `authMiddleware` turns it into a 500 response. -/
theorem config_errors_startup_vs_request (env : ServerEnv)
    (verify : String → String → Option TokenPayload) (hdr : String) :
    (supabaseStartup env = .ok () ↔
      jsFalsy env.supabaseUrl = false ∧ jsFalsy env.supabaseServiceKey = false) ∧
    (jsFalsy env.jwtSecret = true →
      startsWithChars "Bearer ".data hdr.data = true →
      authMiddleware verify env ⟨some hdr⟩ =
        .failed ⟨"JWT secret not configured", 500, false⟩) := by
  constructor
  · unfold supabaseStartup
    by_cases h1 : jsFalsy env.supabaseUrl
    · simp [h1]
    · by_cases h2 : jsFalsy env.supabaseServiceKey
      · simp [h1, h2]
      · simp [h1, h2, Bool.eq_false_iff]
  · intro hjwt hbearer
    unfold authMiddleware
    simp [hbearer, hjwt]

/-- C7 amended, witness: with the Supabase variables set and the JWT secret
absent, startup succeeds and an authorized-looking request is answered with
the configuration error. -/
theorem config_errors_startup_vs_request_witness :
    authMiddleware exVerify exEnvNoJwt ⟨some "Bearer sometoken"⟩ =
      .failed ⟨"JWT secret not configured", 500, false⟩ :=
  (config_errors_startup_vs_request exEnvNoJwt exVerify "Bearer sometoken").2
    (by decide) (by decide)

/-- C7 counterexample: the missing JWT secret is a fatal auth configuration
error that does not cause a startup failure; it is first reported while
handling a request (HTTP 500 from the middleware). -/
theorem missing_jwt_secret_not_detected_at_startup :
    supabaseStartup exEnvNoJwt = .ok () ∧
    authMiddleware exVerify exEnvNoJwt ⟨some "Bearer sometoken"⟩ =
      .failed ⟨"JWT secret not configured", 500, false⟩ :=
  ⟨rfl, rfl⟩

/-- C3 (code bug): one captured tab activity is recorded twice: the handler
both persists the event in the store and pushes a second copy with a
different local id onto the in-memory sync queue, so the pending sequence
read at the start of a sync (store followed by queue) contains the same
captured event under two local ids. -/
theorem captured_event_enters_store_and_queue :
    (handleTabEvent exTab .update 7 initWorld).storage.events =
      [⟨⟨1, 1, .update, "Example", redactSensitiveUrl "https://example.com/page", 7⟩, 0⟩] ∧
    (handleTabEvent exTab .update 7 initWorld).eventQueue =
      [⟨⟨1, 1, .update, "Example", redactSensitiveUrl "https://example.com/page", 7⟩, 1⟩] ∧
    ((handleTabEvent exTab .update 7 initWorld).storage.events ++
        (handleTabEvent exTab .update 7 initWorld).eventQueue).map StoredEvent.event =
      [⟨1, 1, .update, "Example", redactSensitiveUrl "https://example.com/page", 7⟩,
       ⟨1, 1, .update, "Example", redactSensitiveUrl "https://example.com/page", 7⟩] :=
  ⟨rfl, rfl, rfl⟩

/-- C6 counterexample: a close activity on a tab whose url is on the
ignore-list still creates an Event: the handler for tab removal never
consults the ignore-list and always stores a close event (here with the
placeholder title and empty url, as no side-table entry exists). -/
theorem close_of_ignored_tab_still_creates_event :
    shouldIgnoreUrl (RawActivity.url (.tabClose exIgnoredTab 1)) = true ∧
    (dispatchActivity (.tabClose exIgnoredTab 1) 9 initWorld).storage.events =
      [⟨⟨1, 2, .close, "Closed Tab", "", 9⟩, 0⟩] :=
  ⟨rfl, rfl⟩

/-! ## Theorems: the sync batch loop -/

theorem chunksFuel_eq {α : Type} :
    ∀ (fuel : Nat) (l : List α), l.length ≤ fuel → chunksFuel fuel l = chunks50 l := by
  intro fuel
  induction fuel using Nat.strong_induction_on with
  | _ fuel ih =>
    intro l hl
    match fuel, l with
    | 0, [] => rfl
    | 0, x :: xs => simp at hl
    | fuel + 1, [] => rfl
    | fuel + 1, x :: xs =>
      show ((x :: xs).take batchSize) :: chunksFuel fuel ((x :: xs).drop batchSize) =
        chunks50 (x :: xs)
      have hlen : ((x :: xs).drop batchSize).length ≤ xs.length := by
        simp only [List.length_drop, List.length_cons, batchSize]
        omega
      have h1 : chunksFuel fuel ((x :: xs).drop batchSize) =
          chunks50 ((x :: xs).drop batchSize) := by
        apply ih fuel (Nat.lt_succ_self _)
        simp only [List.length_cons] at hl
        omega
      have h3 : chunksFuel xs.length ((x :: xs).drop batchSize) =
          chunks50 ((x :: xs).drop batchSize) := by
        apply ih xs.length (by simp only [List.length_cons] at hl; omega)
        exact hlen
      have h2 : chunks50 (x :: xs) =
          ((x :: xs).take batchSize) :: chunksFuel xs.length ((x :: xs).drop batchSize) := rfl
      rw [h1, h2, h3]

theorem syncBatchLoop_eq_loopSpec (oracle : Nat → PostResult) :
    ∀ (fuel : Nat) (l : List StoredEvent) (i : Nat), l.length ≤ fuel →
    syncBatchLoop oracle fuel l i = loopSpec oracle i (chunks50 l) := by
  intro fuel
  induction fuel using Nat.strong_induction_on with
  | _ fuel ih =>
    intro l i hl
    match fuel, l with
    | 0, [] => rfl
    | 0, x :: xs => simp at hl
    | fuel + 1, [] => rfl
    | fuel + 1, x :: xs =>
      have hlen : ((x :: xs).drop batchSize).length ≤ fuel := by
        simp only [List.length_drop, List.length_cons] at hl ⊢
        simp only [batchSize]
        omega
      have hrec := ih fuel (Nat.lt_succ_self _) ((x :: xs).drop batchSize) (i + 1) hlen
      have hch : chunks50 (x :: xs) =
          ((x :: xs).take batchSize) :: chunks50 ((x :: xs).drop batchSize) := by
        have : chunks50 (x :: xs) =
            ((x :: xs).take batchSize) :: chunksFuel xs.length ((x :: xs).drop batchSize) := rfl
        rw [this, chunksFuel_eq xs.length _ (by
          simp only [List.length_drop, List.length_cons, batchSize]; omega)]
      rw [hch]
      show (match oracle i with
        | .exn => ([], [(x :: xs).take batchSize])
        | .ok =>
          let r := syncBatchLoop oracle fuel ((x :: xs).drop batchSize) (i + 1)
          (((x :: xs).take batchSize).map (fun ev : StoredEvent => ev.localId) ++ r.1,
            ((x :: xs).take batchSize) :: r.2)
        | .errResp =>
          let r := syncBatchLoop oracle fuel ((x :: xs).drop batchSize) (i + 1)
          (r.1, ((x :: xs).take batchSize) :: r.2)) = _
      rcases horc : oracle i with _ | _ | _ <;> simp [loopSpec, horc, hrec]

theorem loopSpec_eq (oracle : Nat → PostResult) :
    ∀ (chunks : List (List StoredEvent)) (i k : Nat),
    oracle (i + k) = .exn → (∀ j, j < k → oracle (i + j) ≠ .exn) →
    loopSpec oracle i chunks =
      (ackedIds oracle (chunks.take k) i, chunks.take (k + 1)) := by
  intro chunks
  induction chunks with
  | nil => intro i k _ _; simp [loopSpec, ackedIds]
  | cons b bs ih =>
    intro i k hk hbefore
    cases k with
    | zero =>
      simp only [Nat.add_zero] at hk
      simp [loopSpec, hk, ackedIds]
    | succ k2 =>
      have h0 : oracle i ≠ .exn := by simpa using hbefore 0 (Nat.succ_pos k2)
      have hk2 : oracle (i + 1 + k2) = .exn := by
        rw [show i + 1 + k2 = i + (k2 + 1) from by omega]
        exact hk
      have hb2 : ∀ j, j < k2 → oracle (i + 1 + j) ≠ .exn := fun j hj => by
        rw [show i + 1 + j = i + (j + 1) from by omega]
        exact hbefore (j + 1) (by omega)
      have hrec := ih (i + 1) k2 hk2 hb2
      rcases horc : oracle i with _ | _ | _
      · simp [loopSpec, horc, hrec, ackedIds, List.take_succ_cons]
      · simp [loopSpec, horc, hrec, ackedIds, List.take_succ_cons]
      · exact absurd horc h0

/-- C1 amended: batches are attempted strictly in order; a batch call that
THROWS ends the cycle: the attempted batches are exactly the first k+1
chunks (k the index of the first throwing call) and the acknowledged (and
removed) local ids are exactly those of the earlier batches whose call
succeeded — a batch answered with a non-thrown error response is not
acknowledged but does not stop the loop. -/
theorem sync_stops_at_thrown_batch (storage : StorageState)
    (queue : List StoredEvent) (tok : String) (n now : Nat)
    (oracle : Nat → PostResult) (k : Nat)
    (htok : tok ≠ "") (hk : oracle k = .exn)
    (hbefore : ∀ j, j < k → oracle j ≠ .exn)
    (hne : storage.events ++ queue ≠ []) :
    (syncPendingEvents now oracle ⟨storage, queue, some tok, false, n⟩).2 =
      (chunks50 (storage.events ++ queue)).take (k + 1) ∧
    (syncPendingEvents now oracle ⟨storage, queue, some tok, false, n⟩).1.storage.events =
      storage.events.filter (fun ev =>
        !(ackedIds oracle ((chunks50 (storage.events ++ queue)).take k) 0).contains ev.localId) ∧
    (syncPendingEvents now oracle ⟨storage, queue, some tok, false, n⟩).1.eventQueue =
      queue.filter (fun ev =>
        !(ackedIds oracle ((chunks50 (storage.events ++ queue)).take k) 0).contains ev.localId) := by
  have hloop : syncBatchLoop oracle (storage.events ++ queue).length
      (storage.events ++ queue) 0 =
      (ackedIds oracle ((chunks50 (storage.events ++ queue)).take k) 0,
        (chunks50 (storage.events ++ queue)).take (k + 1)) := by
    rw [syncBatchLoop_eq_loopSpec oracle _ _ 0 (Nat.le_refl _)]
    exact loopSpec_eq oracle _ 0 k (by simpa using hk)
      (fun j hj => by simpa using hbefore j hj)
  unfold syncPendingEvents
  rw [if_neg (by simp [jsFalsy, htok])]
  simp only
  rw [if_neg (by simpa [List.isEmpty_iff] using hne)]
  rw [hloop]
  refine ⟨rfl, ?_, rfl⟩
  by_cases hac : (ackedIds oracle ((chunks50 (storage.events ++ queue)).take k) 0).isEmpty
  · rw [if_pos hac]
    have hnil : ackedIds oracle ((chunks50 (storage.events ++ queue)).take k) 0 = [] :=
      List.isEmpty_iff.mp hac
    rw [hnil]
    simp [List.contains]
  · rw [if_neg hac]
    rfl

/-- C1 amended, witness: 120 pending events, batch size 50, second call
throws: exactly the first two chunks are sent, only the 50 ids of the first
batch are acknowledged, and the last 70 events stay pending. -/
theorem sync_stops_at_thrown_batch_witness :
    (syncPendingEvents 0 exOracleExnSecond ⟨exStorage120, [], some "tok", false, 200⟩).2 =
      (chunks50 (exStorage120.events ++ [])).take 2 ∧
    (syncPendingEvents 0 exOracleExnSecond
        ⟨exStorage120, [], some "tok", false, 200⟩).1.storage.events =
      exStorage120.events.filter (fun ev =>
        !(ackedIds exOracleExnSecond
            ((chunks50 (exStorage120.events ++ [])).take 1) 0).contains ev.localId) := by
  have h := sync_stops_at_thrown_batch exStorage120 [] "tok" 200 0
    exOracleExnSecond 1 (by decide) (by decide) (by decide) (by decide)
  exact ⟨h.1, h.2.1⟩

/-- C1 counterexample: when the second of three calls fails with an error
RESPONSE (an HTTP error, which `handleResponse` does not turn into a thrown
error), the claim fails: the third call is still attempted (three network
calls in the cycle) and the events of the first AND third batches are
acknowledged, leaving only the second batch (ids 50 to 99) pending instead
of everything from id 50 on. -/
theorem sync_continues_after_error_response :
    (syncPendingEvents 0 exOracleErrSecond exWorld120).2.length = 3 ∧
    (syncPendingEvents 0 exOracleErrSecond exWorld120).1.storage.events.map
      StoredEvent.localId = List.range' 50 50 ∧
    ¬ ((syncPendingEvents 0 exOracleErrSecond exWorld120).2.length ≤ 2 ∧
       (syncPendingEvents 0 exOracleErrSecond exWorld120).1.storage.events.map
         StoredEvent.localId = List.range' 50 70) := by
  refine ⟨by decide, by decide, ?_⟩
  intro hcl
  exact absurd hcl.1 (by decide)

/-! ## Idempotence of redaction

From here on `redactParams` is made irreducible: its symbolic unfolding (a
24-step fold) is never needed below and makes elaboration-time reduction
explode; concrete evaluation above is unaffected. -/

attribute [irreducible] redactParams

theorem redactChars_eq_of_none {s : Chars} (hp : parseUrl s = none) :
    redactChars s = s := by
  unfold redactChars
  rw [hp]

theorem redactChars_eq_of_some {s : Chars} {u : UrlObj} (hp : parseUrl s = some u) :
    redactChars s = serializeUrl ⟨u.base, redactParams u.params, u.frag⟩ := by
  unfold redactChars
  rw [hp]

theorem redactChars_idem (s : Chars) : redactChars (redactChars s) = redactChars s := by
  rcases hp : parseUrl s with _ | u
  · rw [redactChars_eq_of_none hp, redactChars_eq_of_none hp]
  · have hwf := parseUrl_wf hp
    have hwf2 : wfUrl ⟨u.base, redactParams u.params, u.frag⟩ :=
      ⟨hwf.1, wfParams_redactParams hwf.2⟩
    have e1 := redactChars_eq_of_some hp
    have e2 : redactChars (serializeUrl ⟨u.base, redactParams u.params, u.frag⟩)
        = serializeUrl ⟨u.base, redactParams (redactParams u.params), u.frag⟩ :=
      redactChars_eq_of_some (parseUrl_serializeUrl hwf2)
    have e3 : serializeUrl ⟨u.base, redactParams (redactParams u.params), u.frag⟩
        = serializeUrl ⟨u.base, redactParams u.params, u.frag⟩ := by
      rw [redactParams_idem]
    calc redactChars (redactChars s)
        = redactChars (serializeUrl ⟨u.base, redactParams u.params, u.frag⟩) := by
          rw [e1]
      _ = serializeUrl ⟨u.base, redactParams (redactParams u.params), u.frag⟩ := e2
      _ = serializeUrl ⟨u.base, redactParams u.params, u.frag⟩ := e3
      _ = redactChars s := e1.symm

/-! ## Redaction never turns an ordinary url into an ignore-listed one

Redaction keeps the base of the url verbatim and only rewrites the part
after the first `?` or `#`; since no ignore-list entry contains `?` or `#`,
a url that did not match the ignore-list cannot match it after redaction. -/

theorem startsWithChars_iff {p : Chars} : ∀ {s : Chars},
    startsWithChars p s = true ↔ s.take p.length = p := by
  induction p with
  | nil => intro s; simp [startsWithChars]
  | cons c cs ih =>
    intro s
    cases s with
    | nil => simp [startsWithChars]
    | cons d ds =>
      simp only [startsWithChars, Bool.and_eq_true, decide_eq_true_eq,
        List.length_cons, List.take_succ_cons, List.cons.injEq, ih]
      exact ⟨fun ⟨a, b⟩ => ⟨a.symm, b⟩, fun ⟨a, b⟩ => ⟨a.symm, b⟩⟩

theorem parseUrl_base_shape {s : Chars} {u : UrlObj} (h : parseUrl s = some u) :
    ∃ r, s = u.base ++ r := by
  rcases h1 : splitFirst '#' s with ⟨bf, fo⟩
  rcases h2 : splitFirst '?' bf with ⟨base, qo⟩
  simp only [parseUrl, h1, h2] at h
  by_cases hv : validBase base
  · rw [if_pos hv] at h
    injection h with h
    subst h
    have hbf : ∃ r1, bf = base ++ r1 := by
      rcases qo with _ | q
      · exact ⟨[], by rw [(splitFirst_eq_none h2).1, List.append_nil]⟩
      · exact ⟨'?' :: q, (splitFirst_eq_some h2).1⟩
    obtain ⟨r1, hr1⟩ := hbf
    rcases fo with _ | f
    · exact ⟨r1, by rw [(splitFirst_eq_none h1).1, hr1]⟩
    · refine ⟨r1 ++ '#' :: f, ?_⟩
      rw [(splitFirst_eq_some h1).1, hr1, List.append_assoc]
  · rw [if_neg hv] at h
    exact absurd h (by simp)

theorem serializeUrl_shape (v : UrlObj) :
    ∃ r, serializeUrl v = v.base ++ r ∧
      (r = [] ∨ (∃ t, r = '?' :: t) ∨ (∃ t, r = '#' :: t)) := by
  rcases v with ⟨b, ps, f⟩
  rcases ps with _ | ⟨kv, rest⟩ <;> rcases f with _ | fr
  · exact ⟨[], by simp [serializeUrl], Or.inl rfl⟩
  · exact ⟨'#' :: fr, by simp [serializeUrl], Or.inr (Or.inr ⟨fr, rfl⟩)⟩
  · refine ⟨'?' :: serializeQuery (kv :: rest), ?_, Or.inr (Or.inl ⟨_, rfl⟩)⟩
    simp [serializeUrl]
  · refine ⟨'?' :: (serializeQuery (kv :: rest) ++ '#' :: fr), ?_,
      Or.inr (Or.inl ⟨_, rfl⟩)⟩
    simp [serializeUrl]

theorem startsWith_base_transfer {p base r1 r2 : Chars}
    (hp1 : '?' ∉ p) (hp2 : '#' ∉ p)
    (hr2 : r2 = [] ∨ (∃ t, r2 = '?' :: t) ∨ (∃ t, r2 = '#' :: t))
    (h : startsWithChars p (base ++ r2) = true) :
    startsWithChars p (base ++ r1) = true := by
  rw [startsWithChars_iff] at h ⊢
  by_cases hlen : p.length ≤ base.length
  · rw [List.take_append_of_le_length hlen] at h ⊢
    exact h
  · exfalso
    rw [List.take_append_eq_append_take,
      List.take_of_length_le (by omega)] at h
    have hm : 1 ≤ p.length - base.length := by omega
    rcases hr2 with rfl | ⟨t, rfl⟩ | ⟨t, rfl⟩
    · rw [List.take_nil] at h
      have := congrArg List.length h
      simp at this
      omega
    · rcases hk : p.length - base.length with _ | m2
      · omega
      · rw [hk, List.take_succ_cons] at h
        exact hp1 (by rw [← h]; exact List.mem_append_right _ (List.mem_cons_self _ _))
    · rcases hk : p.length - base.length with _ | m2
      · omega
      · rw [hk, List.take_succ_cons] at h
        exact hp2 (by rw [← h]; exact List.mem_append_right _ (List.mem_cons_self _ _))

theorem ignoredSchemes_no_query_chars :
    ∀ q ∈ ignoredSchemes, '?' ∉ q.data ∧ '#' ∉ q.data := by decide

theorem shouldIgnoreUrl_redact {url : String} (h : shouldIgnoreUrl url = false) :
    shouldIgnoreUrl (redactSensitiveUrl url) = false := by
  rcases hp : parseUrl url.data with _ | u
  · have heq : redactSensitiveUrl url = url := by
      unfold redactSensitiveUrl
      rw [redactChars_eq_of_none hp]
    rw [heq]
    exact h
  · obtain ⟨r1, hr1⟩ := parseUrl_base_shape hp
    obtain ⟨r2, hr2eq, hr2shape⟩ :=
      serializeUrl_shape ⟨u.base, redactParams u.params, u.frag⟩
    have hdata : (redactSensitiveUrl url).data = u.base ++ r2 := by
      show (redactChars url.data) = _
      rw [redactChars_eq_of_some hp]
      exact hr2eq
    unfold shouldIgnoreUrl at h ⊢
    rw [List.any_eq_false] at h ⊢
    intro p hpmem
    have hchars := ignoredSchemes_no_query_chars p hpmem
    have hurl := h p hpmem
    rcases hb : startsWithChars p.data (redactSensitiveUrl url).data with _ | _
    · simp
    · exfalso
      rw [hdata] at hb
      have htr := @startsWith_base_transfer p.data u.base r1 r2 hchars.1 hchars.2 hr2shape hb
      rw [← hr1] at htr
      exact hurl htr

theorem mem_storeEvent_events {id : Nat} {e : Event} {st : StorageState}
    {ev : StoredEvent} (h : ev ∈ (storeEvent id e st).events) :
    ev ∈ st.events ∨ ev = ⟨e, id⟩ := by
  rw [storeEvent_events] at h
  have hmem := List.drop_subset _ _ h
  rcases List.mem_append.mp hmem with h1 | h1
  · exact Or.inl h1
  · exact Or.inr (List.mem_singleton.mp h1)

theorem mem_updateTabInfo {tabId : Int} {info : TabInfo} {kv : Int × TabInfo} :
    ∀ {l : List (Int × TabInfo)}, kv ∈ updateTabInfo tabId info l →
    kv = (tabId, info) ∨ kv ∈ l := by
  intro l
  induction l with
  | nil =>
    intro h
    simp only [updateTabInfo, List.mem_singleton] at h
    exact Or.inl h
  | cons x rest ih =>
    rcases x with ⟨k2, v2⟩
    intro h
    by_cases hk : k2 = tabId
    · simp only [updateTabInfo, if_pos hk, List.mem_cons] at h
      rcases h with rfl | h
      · exact Or.inl rfl
      · exact Or.inr (List.mem_cons_of_mem _ h)
    · simp only [updateTabInfo, if_neg hk, List.mem_cons] at h
      rcases h with rfl | h
      · exact Or.inr (List.mem_cons_self _ _)
      · rcases ih h with h2 | h2
        · exact Or.inl h2
        · exact Or.inr (List.mem_cons_of_mem _ h2)

theorem mem_storeEvent_tabInfo {id : Nat} {e : Event} {st : StorageState}
    {kv : Int × TabInfo} (h : kv ∈ (storeEvent id e st).tabInfo) :
    kv ∈ st.tabInfo ∨ kv.2.url = e.url := by
  have hti : (storeEvent id e st).tabInfo =
      (if e.tab_id ≠ 0 ∧ e.url ≠ "" ∧ e.title ≠ "" then
        updateTabInfo e.tab_id ⟨e.title, e.url, e.ts⟩ st.tabInfo
      else st.tabInfo) := rfl
  rw [hti] at h
  by_cases hc : e.tab_id ≠ 0 ∧ e.url ≠ "" ∧ e.title ≠ ""
  · rw [if_pos hc] at h
    rcases mem_updateTabInfo h with h2 | h2
    · subst h2
      exact Or.inr rfl
    · exact Or.inl h2
  · rw [if_neg hc] at h
    exact Or.inl h

theorem lookupTabInfo_mem {tabId : Int} {info : TabInfo} :
    ∀ {l : List (Int × TabInfo)}, lookupTabInfo tabId l = some info →
    (tabId, info) ∈ l := by
  intro l
  induction l with
  | nil => intro h; simp [lookupTabInfo] at h
  | cons x rest ih =>
    rcases x with ⟨k, v⟩
    intro h
    by_cases hk : k = tabId
    · simp only [lookupTabInfo, if_pos hk, Option.some.injEq] at h
      subst hk; subst h
      exact List.mem_cons_self _ _
    · simp only [lookupTabInfo, if_neg hk] at h
      exact List.mem_cons_of_mem _ (ih h)

theorem syncPendingEvents_components (now : Nat) (oracle : Nat → PostResult)
    (w : ClientWorld) :
    (syncPendingEvents now oracle w).1 = w ∨
    ∃ ids : List Nat, (syncPendingEvents now oracle w).1.storage.events =
        w.storage.events.filter (fun ev => !ids.contains ev.localId) ∧
      (syncPendingEvents now oracle w).1.storage.tabInfo = w.storage.tabInfo ∧
      (syncPendingEvents now oracle w).1.eventQueue =
        w.eventQueue.filter (fun ev => !ids.contains ev.localId) := by
  unfold syncPendingEvents
  by_cases h1 : w.syncInProgress ∨ jsFalsy w.authToken = true
  · rw [if_pos h1]
    exact Or.inl rfl
  · rw [if_neg h1]
    simp only
    by_cases h2 : (w.storage.events ++ w.eventQueue).isEmpty
    · rw [if_pos h2]
      exact Or.inl rfl
    · rw [if_neg h2]
      refine Or.inr ⟨(syncBatchLoop oracle (w.storage.events ++ w.eventQueue).length
        (w.storage.events ++ w.eventQueue) 0).1, ?_, ?_, rfl⟩
      · by_cases h3 : (syncBatchLoop oracle (w.storage.events ++ w.eventQueue).length
            (w.storage.events ++ w.eventQueue) 0).1.isEmpty
        · rw [if_pos h3, List.isEmpty_iff.mp h3]
          simp [List.contains]
        · rw [if_neg h3]
          rfl
      · by_cases h3 : (syncBatchLoop oracle (w.storage.events ++ w.eventQueue).length
            (w.storage.events ++ w.eventQueue) 0).1.isEmpty
        · rw [if_pos h3]
        · rw [if_neg h3]
          rfl

theorem goodUrls_applyStep {w : ClientWorld} (s : ClientStep) (h : goodUrls w) :
    goodUrls (applyStep w s) := by
  obtain ⟨hst, hq, hti⟩ := h
  rcases s with ⟨a, now⟩ | ⟨now, oracle⟩ | tok
  · rcases a with ⟨tab, t⟩ | ⟨tab, winId⟩
    · show goodUrls (handleTabEvent tab t now w)
      unfold handleTabEvent
      by_cases h1 : tab.id = 0 ∨ tab.url = "" ∨ tab.windowId = 0
      · rw [if_pos h1]; exact ⟨hst, hq, hti⟩
      · rw [if_neg h1]
        by_cases h2 : shouldIgnoreUrl tab.url
        · rw [if_pos h2]; exact ⟨hst, hq, hti⟩
        · rw [if_neg h2]
          have hred : shouldIgnoreUrl (redactSensitiveUrl tab.url) = false :=
            shouldIgnoreUrl_redact (Bool.not_eq_true _ ▸ Bool.of_not_eq_true h2)
          refine ⟨?_, ?_, ?_⟩
          · intro ev hev
            rcases mem_storeEvent_events hev with h3 | h3
            · exact hst ev h3
            · subst h3; exact hred
          · intro ev hev
            rcases List.mem_append.mp hev with h3 | h3
            · exact hq ev h3
            · rw [List.mem_singleton.mp h3]; exact hred
          · intro kv hkv
            rcases mem_storeEvent_tabInfo hkv with h3 | h3
            · exact hti kv h3
            · rw [h3]; exact hred
    · show goodUrls (handleTabClose tab.id winId now w)
      unfold handleTabClose
      simp only
      have hurl : shouldIgnoreUrl (match lookupTabInfo tab.id w.storage.tabInfo with
          | some i => i.url
          | none => "") = false := by
        rcases hlook : lookupTabInfo tab.id w.storage.tabInfo with _ | i
        · decide
        · exact hti _ (lookupTabInfo_mem hlook)
      refine ⟨?_, ?_, ?_⟩
      · intro ev hev
        rcases mem_storeEvent_events hev with h3 | h3
        · exact hst ev h3
        · subst h3; exact hurl
      · intro ev hev
        rcases List.mem_append.mp hev with h3 | h3
        · exact hq ev h3
        · rw [List.mem_singleton.mp h3]; exact hurl
      · intro kv hkv
        have hkv2 := List.mem_of_mem_filter hkv
        rcases mem_storeEvent_tabInfo hkv2 with h3 | h3
        · exact hti kv h3
        · rw [h3]; exact hurl
  · show goodUrls (syncPendingEvents now oracle w).1
    rcases syncPendingEvents_components now oracle w with heq | ⟨ids, he, htb, hqe⟩
    · rw [heq]; exact ⟨hst, hq, hti⟩
    · refine ⟨?_, ?_, ?_⟩
      · intro ev hev
        rw [he] at hev
        exact hst ev (List.mem_of_mem_filter hev)
      · intro ev hev
        rw [hqe] at hev
        exact hq ev (List.mem_of_mem_filter hev)
      · intro kv hkv
        rw [htb] at hkv
        exact hti kv hkv
  · exact ⟨hst, hq, hti⟩

theorem goodUrls_runTrace {w : ClientWorld} (steps : List ClientStep)
    (h : goodUrls w) : goodUrls (runTrace steps w) := by
  induction steps generalizing w with
  | nil => exact h
  | cons s rest ih =>
    rw [runTrace, List.foldl_cons]
    exact ih (goodUrls_applyStep s h)

/-- C6 amended: an open / update / activate activity on an ignore-listed url
never creates an Event (the handler returns the world unchanged), and along
every trace of the client no event whose url matches the ignore-list ever
appears in the pending store — but a close activity always creates an Event
whose url is recovered from the tab side table (which only ever holds
redacted non-ignored urls) or empty. -/
theorem ignored_urls_never_in_pending (steps : List ClientStep)
    (tab : RawTab) (t : EventType) (now : Nat) (w : ClientWorld) :
    (shouldIgnoreUrl tab.url = true → handleTabEvent tab t now w = w) ∧
    (∀ ev ∈ getPendingEvents (runTrace steps initWorld).storage,
      shouldIgnoreUrl ev.event.url = false) := by
  constructor
  · intro hig
    unfold handleTabEvent
    by_cases h1 : tab.id = 0 ∨ tab.url = "" ∨ tab.windowId = 0
    · rw [if_pos h1]
    · rw [if_neg h1, if_pos hig]
  · have hinit : goodUrls initWorld := by
      refine ⟨?_, ?_, ?_⟩ <;> intro x hx <;> simp [initWorld] at hx
    exact (goodUrls_runTrace steps hinit).1

/-- C6 amended, witness: an update on an ignore-listed internal page is
dropped without any state change, and a sample trace (an ordinary page
update, then closing the internal page) leaves no ignore-listed url in the
pending store. -/
theorem ignored_urls_never_in_pending_witness :
    handleTabEvent exIgnoredTab .update 3 initWorld = initWorld ∧
    (∀ ev ∈ getPendingEvents (runTrace [] initWorld).storage,
      shouldIgnoreUrl ev.event.url = false) :=
  ⟨(ignored_urls_never_in_pending [] exIgnoredTab .update 3 initWorld).1 (by decide),
    (ignored_urls_never_in_pending [] exIgnoredTab .update 3 initWorld).2⟩

/-- C5: URL redaction is idempotent: for every input string,
`redactSensitiveUrl (redactSensitiveUrl url) = redactSensitiveUrl url`, so
redacting an already-redacted URL changes nothing. -/
theorem redactSensitiveUrl_idempotent (url : String) :
    redactSensitiveUrl (redactSensitiveUrl url) = redactSensitiveUrl url :=
  congrArg String.mk (redactChars_idem url.data)

/-- C10 witness: acknowledging ids that match no pending event leaves the
store unchanged. -/
theorem acknowledge_removes_exactly_ids_witness :
    (markEventsSynced 5 [7, 99] exStore3).events = exStore3.events :=
  (acknowledge_removes_exactly_ids 5 [7, 99] exStore3).2.2 (by decide)
